import Mathlib

/-!
Shallow embedding of the LiteBCH codec (src/include/litebch/LiteBCH.h) and
proofs about its specification claims.

Conventions of the embedding:
* C++ `int` bit values (type `B`) are `Nat` restricted to `{0,1}` by invariants.
* GF(2^m) element values (`alpha_to` entries) are `Nat`.
* `index_of` entries are `Int` because `-1` is the log-of-zero sentinel.
* `std::vector` indexing is `List.getD`, which matches C++ behaviour on every
  index that the source actually executes in range.
* Loops become folds / fuelled recursion; the fuel bounds are chosen so the
  recursion always terminates through the loop condition, exactly as in C++.
-/

namespace LiteBCH

/-- Source: LiteBCH::select_polynomial.  Builds the default primitive
polynomial table: p[0] = p[m] = 1 plus the listed taps. -/
def selectPolynomial (m : Nat) : List Nat :=
  let p0 := List.replicate (m + 1) 0
  let p1 := (p0.set 0 1).set m 1
  if m = 3 then p1.set 1 1
  else if m = 4 then p1.set 1 1
  else if m = 5 then p1.set 2 1
  else if m = 6 then p1.set 1 1
  else if m = 7 then p1.set 1 1
  else if m = 8 then ((p1.set 4 1).set 5 1).set 6 1
  else if m = 9 then p1.set 4 1
  else if m = 10 then p1.set 3 1
  else if m = 11 then p1.set 2 1
  else if m = 12 then ((p1.set 3 1).set 4 1).set 7 1
  else if m = 13 then ((p1.set 1 1).set 3 1).set 4 1
  else if m = 14 then ((p1.set 1 1).set 11 1).set 12 1
  else if m = 15 then p1.set 1 1
  else if m = 16 then ((p1.set 2 1).set 3 1).set 5 1
  else p1

/-- Source: LiteBCH::init_galois, one iteration of the first loop at index
i: writes alpha_to[i] = 2^i and index_of[2^i] = i, and accumulates
alpha_to[m] ^= 2^i when p[i] is set. -/
def galoisPhase1Step (m : Nat) (p : List Nat) (st : List Nat × List Int)
    (i : Nat) : List Nat × List Int :=
  let a := st.1.set i (1 <<< i)
  let io := st.2.set (1 <<< i) (Int.ofNat i)
  let a := if p.getD i 0 ≠ 0 then a.set m (a.getD m 0 ^^^ (1 <<< i)) else a
  (a, io)

/-- Source: LiteBCH::init_galois, the whole first loop. -/
def galoisPhase1 (m : Nat) (p : List Nat) (alpha : List Nat) (iof : List Int) :
    List Nat × List Int :=
  (List.range m).foldl (galoisPhase1Step m p) (alpha, iof)

/-- Source: LiteBCH::init_galois, second loop body for one index i > m. -/
def galoisStep (m : Nat) (i : Nat) (a : List Nat) (io : List Int) :
    List Nat × List Int :=
  let mask := 1 <<< (m - 1)
  let prev := a.getD (i - 1) 0
  let v := if prev ≥ mask then a.getD m 0 ^^^ ((prev ^^^ mask) <<< 1) else prev <<< 1
  (a.set i v, io.set v (Int.ofNat i))

/-- Source: LiteBCH::init_galois.  Builds the antilog table alpha_to and the
log table index_of (both of length N+1), finishing with index_of[0] = -1. -/
def initGalois (m N : Nat) (p : List Nat) : List Nat × List Int :=
  let st1 := galoisPhase1 m p (List.replicate (N + 1) 0) (List.replicate (N + 1) 0)
  let io2 := st1.2.set (st1.1.getD m 0) (Int.ofNat m)
  let st3 :=
    (List.range (N - (m + 1))).foldl
      (fun (st : List Nat × List Int) k =>
        galoisStep m (m + 1 + k) st.1 st.2)
      (st1.1, io2)
  (st3.1, st3.2.set 0 (-1))

/-- Source: compute_generator_polynomial, innermost do-while.  Keeps pushing
(last * 2) % N while that doubling has not closed the cycle back to the
front element.  Fuel N is enough since a cycle mod N has fewer than N
elements. -/
def extendCycleSet (N front : Nat) : Nat → List Nat → List Nat
  | 0, acc => acc
  | fuel + 1, acc =>
    let nxt := (acc.getLast?.getD 0 * 2) % N
    let acc := acc ++ [nxt]
    if (nxt * 2) % N ≠ front then extendCycleSet N front fuel acc else acc

/-- Membership test used when advancing the representative: scans
cycle_sets[i] for i ≥ 1 only, exactly as the C++ nested loops do. -/
def repMem (sets : List (List Nat)) (r : Nat) : Bool :=
  (sets.drop 1).any (fun cs => cs.any (fun x => x = r))

/-- Source: the representative-advancing do-while.  Increments r, stopping
when r is not in any existing cycle set or r has reached N-1. -/
def advanceRep (N : Nat) (sets : List (List Nat)) : Nat → Nat → Nat × Bool
  | 0, r => (r, repMem sets r)
  | fuel + 1, r =>
    let r := r + 1
    let t := repMem sets r
    if t ∧ r < N - 1 then advanceRep N sets fuel r else (r, t)

/-- Source: the outer cycle-set enumeration do-while. -/
def cycleSetsLoop (N : Nat) : Nat → Nat → List (List Nat) → List (List Nat)
  | 0, _, sets => sets
  | fuel + 1, rep, sets =>
    let lastSet := sets.getLast?.getD []
    let extended := extendCycleSet N (lastSet.headD 0) N lastSet
    let sets1 := sets.dropLast ++ [extended]
    let (rep1, t) := advanceRep N sets1 N rep
    let sets2 := if t then sets1 else sets1 ++ [[rep1]]
    if rep1 < N - 1 then cycleSetsLoop N fuel rep1 sets2 else sets2

/-- Source: cycle_sets construction, starting from [[0], [1]] with
representative 0. -/
def cycleSets (N : Nat) : List (List Nat) :=
  cycleSetsLoop N N 0 [[0], [1]]

/-- Source: selection of the cosets meeting a root in [1, d).  Returns the
flattened root list prefixed by the unused position 0 (the C++ `zeros`
array) together with rdncy, total size of the selected cosets. -/
def selectedZeros (N d : Nat) : List Nat × Nat :=
  let sets := (cycleSets N).drop 1
  let chosen := sets.filter (fun cs => cs.any (fun x => decide (1 ≤ x) && decide (x < d)))
  let rdncy := (chosen.map List.length).sum
  (((0 :: chosen.flatten).take (rdncy + 1)), rdncy)

/-- Source: one outer step (index i) of the generator product loop.  The
inner j loop descends and each g[j] only reads g[j-1] and its own old
value, so the whole step is a pointwise map over the old coefficient
list. -/
def genStep (N : Nat) (alpha : List Nat) (iof : List Int) (rdncy : Nat)
    (g : List Nat) (i z : Nat) : List Nat :=
  (List.range (rdncy + 1)).map (fun j =>
    if j = i then 1
    else if j = 0 then
      alpha.getD (((iof.getD (g.getD 0 0) 0 + (z : Int)) % (N : Int)).toNat) 0
    else if j < i then
      g.getD (j - 1) 0 ^^^
        (if g.getD j 0 ≠ 0 then
          alpha.getD (((iof.getD (g.getD j 0) 0 + (z : Int)) % (N : Int)).toNat) 0
        else 0)
    else g.getD j 0)

/-- Source: compute_generator_polynomial up to (excluding) the final
binary-reduction loop: the raw GF(2^m)-valued coefficients of g. -/
def computeGeneratorPre (N d : Nat) (alpha : List Nat) (iof : List Int) :
    List Nat :=
  let (zeros, rdncy) := selectedZeros N d
  let g0 := ((List.replicate (rdncy + 1) 0).set 0 (alpha.getD (zeros.getD 1 0) 0)).set 1 1
  (List.range (rdncy - 1)).foldl
    (fun g k =>
      let i := k + 2
      genStep N alpha iof rdncy g i (zeros.getD i 0))
    g0

/-- Source: compute_generator_polynomial including the final loop
`for (auto &val : g) val &= 1;` that reduces every coefficient mod 2. -/
def computeGeneratorPolynomial (N d : Nat) (alpha : List Nat) (iof : List Int) :
    List Nat :=
  (computeGeneratorPre N d alpha iof).map (fun v => v &&& 1)

/-- Helper for ceilLog2: first exponent m (starting from the accumulator)
with N ≤ 2^m. -/
def ceilLog2Go (N : Nat) : Nat → Nat → Nat
  | 0, m => m
  | fuel + 1, m => if N ≤ 1 <<< m then m else ceilLog2Go N fuel (m + 1)

/-- Models the constructor expression (int)std::ceil(std::log2(N)) for
N ≥ 1: the least m with N ≤ 2^m. -/
def ceilLog2 (N : Nat) : Nat := ceilLog2Go N N 0

/-- Codec state after a successful construction: dimensions and tables. -/
structure Codec where
  N : Nat
  t : Nat
  m : Nat
  d : Nat
  p : List Nat
  alpha_to : List Nat
  index_of : List Int
  g : List Nat
  n_rdncy : Nat
  K : Nat
  ecc_bits : Nat
  ecc_words : Nat
  ecc_bytes : Nat
  deriving Repr, DecidableEq, Inhabited

/-- Source: the body of the LiteBCH constructor after validation: builds
the tables and dimensions for the (already validated) arguments. -/
def buildCodec (N t m : Nat) (p0 : List Nat) : Codec :=
  let p := if p0 = [] then selectPolynomial m else p0
  let d := 2 * t + 1
  let tables := initGalois m N p
  let g := computeGeneratorPolynomial N d tables.1 tables.2
  let n_rdncy := g.length - 1
  let K := N - n_rdncy
  let ecc_bits := N - K
  { N := N, t := t, m := m, d := d, p := p, alpha_to := tables.1,
    index_of := tables.2, g := g, n_rdncy := n_rdncy, K := K,
    ecc_bits := ecc_bits, ecc_words := (ecc_bits + 31) / 32,
    ecc_bytes := (ecc_bits + 7) / 8 }

/-- Source: the LiteBCH constructor.  m is ceil(log2 N); construction throws
invalid_argument exactly when N is not 2^m - 1 or a supplied p has size
different from m + 1; otherwise the tables are built unconditionally. -/
def mkCodec (N t : Nat) (p : List Nat) : Except String Codec :=
  if N ≠ (1 <<< ceilLog2 N) - 1 then .error "N must be 2^m - 1"
  else if p ≠ [] ∧ p.length ≠ ceilLog2 N + 1 then
    .error "Primitive polynomial p must have size m + 1"
  else .ok (buildCodec N t (ceilLog2 N) p)

/-! ### Encoding: bit path (reference LFSR) -/

/-- Source: the body of the loop in LiteBCH::__encode for one message bit.
feedback = input XOR par[n_rdncy-1]; the j loop descends, so each par[j]
reads the old par[j-1]; par[0] = feedback ? (g[0] && feedback) : 0. -/
def lfsrStep (g : List Nat) (n : Nat) (par : List Nat) (input : Nat) : List Nat :=
  let feedback := input ^^^ par.getD (n - 1) 0
  (List.range n).map (fun j =>
    if j = 0 then
      (if feedback ≠ 0 then (if g.getD 0 0 ≠ 0 ∧ feedback ≠ 0 then 1 else 0) else 0)
    else par.getD (j - 1) 0 ^^^ (g.getD j 0 &&& feedback))

/-- Source: LiteBCH::__encode.  Feeds message bits U_K[K-1] down to U_K[0]
into the cleared LFSR register. -/
def encodeParity (g : List Nat) (n : Nat) (msg : List Nat) : List Nat :=
  msg.reverse.foldl (lfsrStep g n) (List.replicate n 0)

/-- Source: LiteBCH::encode(const std::vector<B>&).  Throws on size
mismatch, otherwise produces the systematic codeword
[parity (n_rdncy) | message (K)]. -/
def encodeVec (c : Codec) (msg : List Nat) : Option (List Nat) :=
  if msg.length = c.K then some (encodeParity c.g c.n_rdncy msg ++ msg)
  else none

/-! ### Encoding: byte path (fast LUT over 32-bit words) -/

/-- Source: static get_top_byte.  Reads parity bits n_bits-8 .. n_bits-1 of
the word array (skipping negative positions) into a byte, LSB of the
result holding the lowest of those positions. -/
def getTopByte (par : List Nat) (nBits : Nat) : Nat :=
  (List.range 8).foldl (fun res i =>
    if 8 ≤ nBits + i ∧
        par.getD ((nBits + i - 8) / 32) 0 &&& (1 <<< ((nBits + i - 8) % 32)) ≠ 0
    then res ||| (1 <<< i) else res) 0

/-- Source: static shift_left_8.  Shifts the little-endian word array left
by one byte, carrying the top byte of each 32-bit word into the next. -/
def shiftLeft8 (par : List Nat) : List Nat :=
  ((par.foldl (fun (st : List Nat × Nat) w =>
      (st.1 ++ [((w <<< 8) % (2 ^ 32)) ||| st.2], w >>> 24)) ([], 0))).1

/-- Source: static apply_mask.  Zeroes every parity bit at position
n_bits or above in the word array. -/
def applyMask (par : List Nat) (nBits : Nat) : List Nat :=
  (List.range par.length).map (fun w =>
    let startBit := w * 32
    if nBits ≤ startBit then 0
    else if nBits < startBit + 32 then par.getD w 0 &&& ((1 <<< (nBits - startBit)) - 1)
    else par.getD w 0)

/-- Source: the LFSR step inside init_fast_tables (identical to the
__encode step; rem[0] is written as `g[0] ? feedback : 0`). -/
def lutLfsrStep (g : List Nat) (n : Nat) (rem : List Nat) (input : Nat) : List Nat :=
  let feedback := input ^^^ rem.getD (n - 1) 0
  (List.range n).map (fun k =>
    if k = 0 then (if g.getD 0 0 ≠ 0 then feedback else 0)
    else rem.getD (k - 1) 0 ^^^ (g.getD k 0 &&& feedback))

/-- Source: the packing loop of init_fast_tables: rem[idx] goes to bit
idx%32 of word idx/32 (little endian). -/
def packRemToWords (rem : List Nat) (eccBits eccWords : Nat) : List Nat :=
  (List.range eccWords).map (fun w =>
    (List.range 32).foldl (fun word b =>
      if w * 32 + b < eccBits ∧ rem.getD (w * 32 + b) 0 ≠ 0
      then word ||| (1 <<< b) else word) 0)

/-- Source: one entry of encode_lut: simulate 8 serial LFSR steps on byte i
(bits 7 down to 0) from a cleared remainder, then pack into words. -/
def encodeLutEntry (g : List Nat) (eccBits eccWords : Nat) (i : Nat) : List Nat :=
  let rem := (List.range 8).foldl
    (fun rem k => lutLfsrStep g eccBits rem ((i >>> (7 - k)) &&& 1))
    (List.replicate eccBits 0)
  packRemToWords rem eccBits eccWords

/-- Source: the single-bit LFSR tail step of the byte-oriented encode
(shift the word array left by one bit, then XOR in the packed g on
feedback). -/
def tailBitStep (g : List Nat) (eccBits : Nat) (par : List Nat)
    (inputBit : Nat) : List Nat :=
  let topBit :=
    if par.getD ((eccBits - 1) / 32) 0 &&& (1 <<< ((eccBits - 1) % 32)) ≠ 0
    then 1 else 0
  let feedback := inputBit ^^^ topBit
  let par :=
    ((par.foldl (fun (st : List Nat × Nat) w =>
        (st.1 ++ [((w <<< 1) % (2 ^ 32)) ||| st.2], w >>> 31)) ([], 0))).1
  if feedback ≠ 0 then
    (List.range eccBits).foldl (fun par k =>
      if g.getD k 0 ≠ 0 then
        par.set (k / 32) (par.getD (k / 32) 0 ^^^ (1 <<< (k % 32)))
      else par) par
  else par

/-- Source: LiteBCH::encode(const uint8_t*, size_t, uint8_t*), producing
the parity word array: the fast LUT loop over the K/8 full message bytes
followed by the bitwise tail over the remaining K%8 bits. -/
def byteEncodeWords (g : List Nat) (K eccBits eccWords : Nat)
    (data : List Nat) : List Nat :=
  let fullBytes := K / 8
  let remBits := K % 8
  let par0 : List Nat := List.replicate eccWords 0
  let par1 := (List.range fullBytes).foldl (fun par i =>
    let input := data.getD i 0
    let feedback := getTopByte par eccBits ^^^ input
    let par := applyMask (shiftLeft8 par) eccBits
    let lut := encodeLutEntry g eccBits eccWords feedback
    (List.range eccWords).map (fun w => par.getD w 0 ^^^ lut.getD w 0)) par0
  if remBits > 0 then
    let lastByte := data.getD fullBytes 0
    let par2 := (List.range remBits).foldl (fun par b =>
      tailBitStep g eccBits par ((lastByte >>> (7 - b)) &&& 1)) par1
    applyMask par2 eccBits
  else par1

/-- Source: the output loop of the byte-oriented encode: parity bit i goes
to bit i%8 of ecc byte i/8. -/
def wordsToEccBytes (par : List Nat) (eccBits eccBytes : Nat) : List Nat :=
  (List.range eccBytes).map (fun byteIdx =>
    (List.range 8).foldl (fun acc b =>
      if byteIdx * 8 + b < eccBits ∧
          par.getD ((byteIdx * 8 + b) / 32) 0 &&& (1 <<< ((byteIdx * 8 + b) % 32)) ≠ 0
      then acc ||| (1 <<< b) else acc) 0)

/-- Source: the whole byte-oriented encode: words then byte packing. -/
def byteEncode (c : Codec) (data : List Nat) : List Nat :=
  wordsToEccBytes (byteEncodeWords c.g c.K c.ecc_bits c.ecc_words data)
    c.ecc_bits c.ecc_bytes

/-! ### Decoding: fast byte-oriented path and the bit-vector wrapper -/

/-- Source: one entry of syndrome_lut (init_fast_tables):
syndrome_lut[i][b] = XOR over set bits p of b of alpha_to[(i*p) % N]. -/
def syndromeLut (c : Codec) (i b : Nat) : Nat :=
  (List.range 8).foldl (fun val p =>
    if (b >>> p) &&& 1 ≠ 0 then val ^^^ c.alpha_to.getD ((i * p) % c.N) 0 else val) 0

/-- XOR of two GF values stored as nonnegative Int (poly form).  The C++
code applies `^` to ints that are nonnegative at every use site. -/
def ixor (a b : Int) : Int := Int.ofNat (a.toNat ^^^ b.toNat)

/-- Source: the syndrome Horner loop of the fast decode, processing the
ecc-difference bytes from high index down to 0.  s_poly[i] is kept in
polynomial form. -/
def syndromesFromDiff (c : Codec) (diff : List Nat) : List Nat :=
  ((List.range c.ecc_bytes).reverse).foldl (fun sPoly k =>
    let b0 := diff.getD k 0
    let b := if k = c.ecc_bytes - 1 ∧ c.n_rdncy % 8 ≠ 0
             then b0 &&& ((1 <<< (c.n_rdncy % 8)) - 1) else b0
    (List.range (2 * c.t + 1)).map (fun i =>
      if i = 0 then sPoly.getD 0 0
      else
        let sv := sPoly.getD i 0
        let sv := if sv ≠ 0 then
            c.alpha_to.getD
              (((c.index_of.getD sv 0 + ((i * 8 % c.N : Nat) : Int)) % (c.N : Int)).toNat) 0
          else sv
        sv ^^^ syndromeLut c i b))
    (List.replicate (2 * c.t + 1) 0)

/-- Berlekamp-Massey workspace rows, as in the decoder buffers. -/
structure BMState where
  elp : List (List Int)
  dsc : List Int
  l : List Int
  u_lu : List Int
  deriving Repr, DecidableEq

/-- Source: the initial conditions of the Berlekamp iteration (fresh
zeroed buffers as allocated by the constructor, then the explicit
initial writes). -/
def bmInit (c : Codec) (s : List Int) : BMState :=
  let t2 := 2 * c.t
  let rows := t2 + 5
  let row0 : List Int := List.replicate (c.N + 1) 0
  let elp0 : List (List Int) := List.replicate rows row0
  let elp1 := (elp0.set 0 (row0.set 0 0)).set 1 (row0.set 0 1)
  let elp2 := (List.range (t2 - 1)).foldl (fun e k =>
    let i := k + 1
    let e := e.set 0 ((e.getD 0 []).set i (-1))
    e.set 1 ((e.getD 1 []).set i 0)) elp1
  { elp := elp2,
    dsc := (((List.replicate rows (0 : Int)).set 0 0).set 1 (s.getD 1 0)),
    l := List.replicate rows 0,
    u_lu := ((List.replicate rows (0 : Int)).set 0 (-1)).set 1 0 }

/-- Source: the backward search for the step q with nonzero discrepancy:
q starts at u-1 and walks down while discrepancy[q] = -1 and q > 0. -/
def firstQ (dsc : List Int) : Nat → Nat
  | 0 => 0
  | q + 1 => if dsc.getD (q + 1) 0 = -1 then firstQ dsc q else q + 1

/-- Source: the j do-while that replaces q by any j < q with
discrepancy[j] not -1 and strictly larger u_lu. -/
def bestQ (dsc u_lu : List Int) (q : Nat) : Nat :=
  (List.range q).reverse.foldl (fun qc j =>
    if dsc.getD j 0 ≠ -1 ∧ u_lu.getD qc 0 < u_lu.getD j 0 then j else qc) q

/-- Source: the body of the Berlekamp do-while for one step u ≥ 1
(both decode paths share this text verbatim). -/
def bmBody (c : Codec) (s : List Int) (u : Nat) (st : BMState) : BMState :=
  let t2 := 2 * c.t
  let NN : Int := (c.N : Int)
  let st :=
    if st.dsc.getD u 0 = -1 then
      let lu := (st.l.getD u 0).toNat
      let st1 := { st with l := st.l.set (u + 1) (st.l.getD u 0) }
      (List.range (lu + 1)).foldl (fun st2 i =>
        let eui := (st2.elp.getD u []).getD i 0
        let elp := st2.elp.set (u + 1) (((st2.elp.getD (u + 1) []).set i eui))
        let elp := elp.set u ((elp.getD u []).set i (c.index_of.getD eui.toNat 0))
        { st2 with elp := elp }) st1
    else
      let q0 := firstQ st.dsc (u - 1)
      let q := if q0 > 0 then bestQ st.dsc st.u_lu q0 else q0
      let lu := (st.l.getD u 0).toNat
      let lq := (st.l.getD q 0).toNat
      let lNew : Int := if st.l.getD u 0 > st.l.getD q 0 + (u : Int) - (q : Int)
                        then st.l.getD u 0 else st.l.getD q 0 + (u : Int) - (q : Int)
      let st1 := { st with l := st.l.set (u + 1) lNew }
      let zeroRow := (List.range t2).foldl (fun (r : List Int) i => r.set i 0)
        (st1.elp.getD (u + 1) [])
      let st2 := { st1 with elp := st1.elp.set (u + 1) zeroRow }
      let st3 := (List.range (lq + 1)).foldl (fun st3 i =>
        let eqi := (st3.elp.getD q []).getD i 0
        if eqi ≠ -1 then
          let v := c.alpha_to.getD
            (((st3.dsc.getD u 0 + NN - st3.dsc.getD q 0 + eqi) % NN).toNat) 0
          let newRow := (st3.elp.getD (u + 1) []).set (i + u - q) (Int.ofNat v)
          { st3 with elp := st3.elp.set (u + 1) newRow }
        else st3) st2
      (List.range (lu + 1)).foldl (fun st4 i =>
        let eui := (st4.elp.getD u []).getD i 0
        let elp := st4.elp.set (u + 1)
          ((st4.elp.getD (u + 1) []).set i (ixor ((st4.elp.getD (u + 1) []).getD i 0) eui))
        let elp := elp.set u ((elp.getD u []).set i (c.index_of.getD eui.toNat 0))
        { st4 with elp := elp }) st3
  let st := { st with u_lu := st.u_lu.set (u + 1) ((u : Int) - st.l.getD (u + 1) 0) }
  if u < t2 then
    let d0 : Int := if s.getD (u + 1) 0 ≠ -1
      then Int.ofNat (c.alpha_to.getD (s.getD (u + 1) 0).toNat 0) else 0
    let lNew := (st.l.getD (u + 1) 0).toNat
    let d1 := (List.range lNew).foldl (fun (d : Int) k =>
      let i := k + 1
      let ei : Int := (st.elp.getD (u + 1) []).getD i 0
      let sv : Int := s.getD (u + 1 - i) 0
      if sv ≠ -1 ∧ ei ≠ 0 then
        ixor d (Int.ofNat (c.alpha_to.getD
          (((sv + c.index_of.getD ei.toNat 0) % NN).toNat) 0))
      else d) d0
    { st with dsc := st.dsc.set (u + 1) (c.index_of.getD d1.toNat 0) }
  else st

/-- Source: the Berlekamp do-while loop.  u starts at 0 and is incremented
at the top of each iteration; the loop repeats while u < 2t and
l[u+1] <= t, and u is incremented once more after exit.  Fuel 2t is
enough since u rises by one per iteration. -/
def bmLoop (c : Codec) (s : List Int) : Nat → Nat → BMState → BMState × Nat
  | 0, u, st => (st, u + 1)
  | fuel + 1, u, st =>
    let u1 := u + 1
    let st1 := bmBody c s u1 st
    if u1 < 2 * c.t ∧ st1.l.getD (u1 + 1) 0 ≤ (c.t : Int)
    then bmLoop c s fuel u1 st1
    else (st1, u1 + 1)

/-- Source: the Chien search of the fast decode (modulo via conditional
subtraction).  Returns the located error positions N - i. -/
def chien (c : Codec) (lu : Nat) (reg : List Int) : List Nat :=
  (((List.range c.N).foldl (fun (st : List Int × List Nat) k =>
    let i := k + 1
    let (reg, locs) := st
    let (reg, q) := (List.range lu).foldl (fun (st2 : List Int × Nat) kj =>
      let j := kj + 1
      let (reg, q) := st2
      if reg.getD j 0 ≠ -1 then
        let v := (reg.getD j 0 + (j : Int)).toNat
        let v := if v ≥ c.N then v - c.N else v
        (reg.set j (Int.ofNat v), q ^^^ c.alpha_to.getD v 0)
      else (reg, q)) (reg, 1)
    if q = 0 then (reg, locs ++ [c.N - i]) else (reg, locs)) (reg, [])).2)

/-- Source: the in-place correction loop of the fast decode: an error at
codeword bit index bit_idx >= n_rdncy flips the corresponding
MSB-first-packed data bit, otherwise the LSB-packed ecc bit. -/
def applyCorrections (c : Codec) (len : Nat) (locs : List Nat)
    (data ecc : List Nat) : List Nat × List Nat :=
  locs.foldl (fun (st : List Nat × List Nat) bitIdx =>
    let (data, ecc) := st
    if bitIdx ≥ c.n_rdncy then
      let dIdx := bitIdx - c.n_rdncy
      let streamPos := c.K - 1 - dIdx
      let byteIdx := streamPos / 8
      let bitOff := 7 - streamPos % 8
      if byteIdx < len then
        (data.set byteIdx (data.getD byteIdx 0 ^^^ (1 <<< bitOff)), ecc)
      else (data, ecc)
    else
      let byteIdx := bitIdx / 8
      let bitOff := bitIdx % 8
      if byteIdx < c.ecc_bytes then
        (data, ecc.set byteIdx (ecc.getD byteIdx 0 ^^^ (1 <<< bitOff)))
      else (data, ecc)) (data, ecc)

/-- Source: LiteBCH::decode(uint8_t*, size_t, uint8_t*).  Returns the
correction count (or -1 on uncorrectable failure) together with the final
data and ecc buffers. -/
def decodeBytes (c : Codec) (data ecc : List Nat) : Int × List Nat × List Nat :=
  let calc0 := byteEncode c data
  let diff := (List.range c.ecc_bytes).map (fun i => calc0.getD i 0 ^^^ ecc.getD i 0)
  let sPoly := syndromesFromDiff c diff
  let synError := (List.range (2 * c.t)).any (fun k => sPoly.getD (k + 1) 0 ≠ 0)
  if ¬ synError then (0, data, ecc)
  else
    let s : List Int := (List.range (2 * c.t + 1)).map (fun i =>
      if i = 0 then 0
      else if sPoly.getD i 0 ≠ 0 then c.index_of.getD (sPoly.getD i 0) 0 else -1)
    let bm := bmLoop c s (2 * c.t) 0 (bmInit c s)
    let st := bm.1
    let u := bm.2
    if st.l.getD u 0 ≤ (c.t : Int) then
      let lu := (st.l.getD u 0).toNat
      let row := (List.range (lu + 1)).foldl (fun (r : List Int) i =>
        r.set i (c.index_of.getD (r.getD i 0).toNat 0)) (st.elp.getD u [])
      let reg := (List.range lu).foldl (fun (r : List Int) k =>
        r.set (k + 1) (row.getD (k + 1) 0)) (List.replicate (c.t + 1) (0 : Int))
      let locs := chien c lu reg
      if locs.length = lu then
        let fixed := applyCorrections c data.length locs data ecc
        (Int.ofNat locs.length, fixed.1, fixed.2)
      else (-1, data, ecc)
    else (-1, data, ecc)

/-- Source: the packing loop of decode(vector): received parity bit i
goes to bit i%8 of ecc byte i/8. -/
def packEccFromBits (c : Codec) (receivedBits : List Nat) : List Nat :=
  (List.range c.n_rdncy).foldl (fun ecc i =>
    if receivedBits.getD i 0 ≠ 0 then
      ecc.set (i / 8) (ecc.getD (i / 8) 0 ||| (1 <<< (i % 8)))
    else ecc) (List.replicate c.ecc_bytes 0)

/-- Source: the packing loop of decode(vector): received message bit
n_rdncy+i goes to stream position K-1-i, MSB first. -/
def packDataFromBits (c : Codec) (receivedBits : List Nat) : List Nat :=
  (List.range c.K).foldl (fun data i =>
    if receivedBits.getD (c.n_rdncy + i) 0 ≠ 0 then
      let s := c.K - 1 - i
      data.set (s / 8) (data.getD (s / 8) 0 ||| (1 <<< (7 - s % 8)))
    else data) (List.replicate ((c.K + 7) / 8) 0)

/-- Source: the unpacking loop of decode(vector), reading the corrected
message bits back out of the data bytes. -/
def unpackMsg (K : Nat) (data : List Nat) : List Nat :=
  (List.range K).map (fun i =>
    let s := K - 1 - i
    (data.getD (s / 8) 0 >>> (7 - s % 8)) &&& 1)

/-- Source: LiteBCH::decode(const std::vector<B>&, std::vector<B>&).
Returns the success flag and the final contents of the output vector;
on both failure paths the output vector is returned untouched. -/
def decodeVec (c : Codec) (receivedBits decodedMessage : List Nat) :
    Bool × List Nat :=
  if receivedBits.length ≠ c.N then (false, decodedMessage)
  else
    let data := packDataFromBits c receivedBits
    let ecc := packEccFromBits c receivedBits
    let res := decodeBytes c data ecc
    if res.1 < 0 then (false, decodedMessage)
    else (true, unpackMsg c.K res.2.1)

/-! ### Concrete codecs used as witnesses and counterexamples -/

/-- The BCH(15, 7, t=2) codec built with the default primitive polynomial
x^4 + x + 1. -/
def codec15 : Codec := ((mkCodec 15 2 []).toOption).getD default

/-- The degenerate codec the constructor accepts for N = 7, t = 4 even
though 2t >= N; it has K = 1. -/
def codec7 : Codec := ((mkCodec 7 4 []).toOption).getD default

/-- A codec built from the non-primitive polynomial
x^4 + x^3 + x^2 + x + 1 (order 5), which the constructor accepts. -/
def codecNP : Codec := ((mkCodec 15 1 [1, 1, 1, 1, 1]).toOption).getD default

/-- Pointwise XOR of two bit vectors (error-pattern injection). -/
def xorBits (a b : List Nat) : List Nat := List.zipWith (fun x y => x ^^^ y) a b

/-- The value (0 or 1) of global parity bit i in the little-endian 32-bit
word array view used by the fast encoder. -/
def wbit (par : List Nat) (i : Nat) : Nat :=
  (par.getD (i / 32) 0 >>> (i % 32)) &&& 1

/-- One abstract LFSR step on a bit-function state: the common semantics
of the __encode step, the init_fast_tables step and the byte-encode tail
step, once all values are binary. -/
def stepF (g : List Nat) (n : Nat) (r : Nat → Nat) (x : Nat) : Nat → Nat :=
  fun j =>
    if j < n then
      if j = 0 then g.getD 0 0 &&& (x ^^^ r (n - 1))
      else r (j - 1) ^^^ (g.getD j 0 &&& (x ^^^ r (n - 1)))
    else 0

/-- Iterated abstract LFSR steps over a list of input bits. -/
def stepsF (g : List Nat) (n : Nat) (r : Nat → Nat) (inputs : List Nat) :
    Nat → Nat :=
  inputs.foldl (stepF g n) r

/-- The MSB-first list of the 8 bits of a byte. -/
def byteBitsMSB (b : Nat) : List Nat :=
  (List.range 8).map (fun k => (b >>> (7 - k)) &&& 1)

/-- The zero bit-function state. -/
def zeroF : Nat → Nat := fun _ => 0

/-- The zeta-reduced body of the fast encoder's full-byte loop: one whole
input byte bb folded into the parity word array. -/
def byteStepW (g : List Nat) (n W : Nat) (par : List Nat) (bb : Nat) : List Nat :=
  (List.range W).map (fun w =>
    (applyMask (shiftLeft8 par) n).getD w 0 ^^^
      (encodeLutEntry g n W (getTopByte par n ^^^ bb)).getD w 0)

/-- Bit s of the byte stream handed to the byte-oriented encoder: bit
7 - s%8 of byte s/8 (the MSB-first packing convention). -/
def streamBit (data : List Nat) (s : Nat) : Nat :=
  (data.getD (s / 8) 0 >>> (7 - s % 8)) &&& 1

/-- Correspondence between the fast encoder's word-array state and an
abstract bit-function state on the first n bits. -/
def WordState (n W : Nat) (par : List Nat) (r : Nat → Nat) : Prop :=
  par.length = W ∧ (∀ j, par.getD j 0 < 2 ^ 32) ∧ (∀ i, i < n → wbit par i = r i)

/-- Invariant of the interleaved table construction in init_galois: every
nonzero value stored in the first pos entries of alpha can be looked up
through index_of, landing back on an entry that holds it. -/
def TableInv (pos : Nat) (a : List Nat) (io : List Int) : Prop :=
  ∀ x : Nat, x ≠ 0 → (∃ i, i < pos ∧ a.getD i 0 = x) →
    0 ≤ io.getD x 0 ∧ (io.getD x 0).toNat < pos ∧ a.getD (io.getD x 0).toNat 0 = x

/-- Combined invariant carried through the init_galois construction:
table lengths, the 2^m value bound, alpha_to[0] = 1 once written, and
the index recording invariant. -/
def GaloisInv (m N pos : Nat) (st : List Nat × List Int) : Prop :=
  st.1.length = N + 1 ∧ st.2.length = N + 1 ∧
  (∀ j : Nat, st.1.getD j 0 < 2 ^ m) ∧
  (1 ≤ pos → st.1.getD 0 0 = 1) ∧
  TableInv pos st.1 st.2

/-! ## Theorems -/

/-- Helper: full characterization of getD after set. -/
theorem getD_set {α : Type _} (l : List α) (i j : Nat) (v d : α) :
    (l.set i v).getD j d = if i = j ∧ i < l.length then v else l.getD j d := by
  split
  · rename_i h
    obtain ⟨rfl, hlen⟩ := h
    rw [List.getD_eq_getD_get?, List.get?_eq_getElem?, List.getElem?_set_self hlen]
    rfl
  · rename_i h
    by_cases hij : i = j
    · subst hij
      have hlen : ¬ i < l.length := fun hc => h ⟨rfl, hc⟩
      rw [List.getD_eq_getD_get?, List.get?_eq_getElem?,
        List.getD_eq_getD_get?, List.get?_eq_getElem?]
      rw [List.getElem?_set_self']
      rw [List.getElem?_eq_none (by omega)]
      rfl
    · rw [List.getD_eq_getD_get?, List.get?_eq_getElem?,
        List.getD_eq_getD_get?, List.get?_eq_getElem?, List.getElem?_set_ne hij]

/-- Helper: set at an index at or above pos preserves TableInv pos. -/
theorem tableInv_set_hi (pos k v : Nat) (a : List Nat) (io : List Int)
    (hk : pos ≤ k) (h : TableInv pos a io) : TableInv pos (a.set k v) io := by
  intro x hx hocc
  obtain ⟨i, hi, hvx⟩ := hocc
  rw [getD_set] at hvx
  have hik : ¬ (k = i ∧ k < a.length) → a.getD i 0 = x := fun hne => by
    rw [if_neg hne] at hvx; exact hvx
  have hkne : ¬ (k = i ∧ k < a.length) := by
    intro ⟨hki, _⟩
    omega
  obtain ⟨h1, h2, h3⟩ := h x hx ⟨i, hi, hik hkne⟩
  refine ⟨h1, h2, ?_⟩
  rw [getD_set, if_neg (by intro ⟨hke, _⟩; omega)]
  exact h3

/-- Helper: recording index_of[v] = pos for the value v already stored at
alpha position pos extends TableInv by one position. -/
theorem tableInv_record (pos : Nat) (a : List Nat) (io : List Int)
    (h : TableInv pos a io)
    (hvlen : a.getD pos 0 < io.length) :
    TableInv (pos + 1) a (io.set (a.getD pos 0) (Int.ofNat pos)) := by
  intro x hx hocc
  by_cases hxv : x = a.getD pos 0
  · rw [getD_set, if_pos ⟨hxv.symm, hxv ▸ hvlen⟩]
    exact ⟨Int.ofNat_nonneg pos, by simp, hxv.symm⟩
  · rw [getD_set, if_neg (by intro ⟨hvx, _⟩; exact hxv hvx.symm)]
    obtain ⟨i, hi, hvx⟩ := hocc
    have hilt : i < pos := by
      rcases Nat.lt_succ_iff_lt_or_eq.mp hi with hlt | heq
      · exact hlt
      · exact absurd (heq ▸ hvx).symm hxv
    obtain ⟨h1, h2, h3⟩ := h x hx ⟨i, hilt, hvx⟩
    exact ⟨h1, Nat.lt_succ_of_lt h2, h3⟩

/-- Helper: writing alpha[pos] = v and index_of[v] = pos extends TableInv
by one position. -/
theorem tableInv_write (pos v : Nat) (a : List Nat) (io : List Int)
    (h : TableInv pos a io) (hpos : pos < a.length) (hvlen : v < io.length) :
    TableInv (pos + 1) (a.set pos v) (io.set v (Int.ofNat pos)) := by
  have h1 := tableInv_set_hi pos pos v a io (Nat.le_refl _) h
  have hv : (a.set pos v).getD pos 0 = v := by
    rw [getD_set, if_pos ⟨rfl, hpos⟩]
  have h2 := tableInv_record pos (a.set pos v) io h1 (by rw [hv]; exact hvlen)
  rw [hv] at h2
  exact h2

/-- Helper: clearing the set top bit of a value below 2^m yields a value
below 2^(m-1). -/
theorem xor_top_clear {x m : Nat} (hm : 1 ≤ m) (h1 : 2 ^ (m - 1) ≤ x)
    (h2 : x < 2 ^ m) : x ^^^ 2 ^ (m - 1) < 2 ^ (m - 1) := by
  have hxbit : x.testBit (m - 1) = true := by
    have hpos : 0 < 2 ^ (m - 1) := Nat.pos_pow_of_pos _ (by omega)
    have hdivlow : 1 ≤ x / 2 ^ (m - 1) := (Nat.one_le_div_iff hpos).mpr h1
    have hdivhigh : x / 2 ^ (m - 1) < 2 := by
      rw [Nat.div_lt_iff_lt_mul hpos]
      have hpow : (2 : Nat) ^ (m - 1) * 2 = 2 ^ m := by
        rw [← Nat.pow_succ]
        congr 1
        omega
      omega
    rw [Nat.testBit_to_div_mod]
    have hd1 : x / 2 ^ (m - 1) = 1 := by omega
    rw [hd1]
    decide
  by_contra hge
  push_neg at hge
  obtain ⟨i, hi, hbit⟩ := Nat.ge_two_pow_implies_high_bit_true hge
  rw [Nat.testBit_xor] at hbit
  rcases Nat.eq_or_lt_of_le hi with heq | hgt
  · rw [← heq, hxbit, Nat.testBit_two_pow_self] at hbit
    simp at hbit
  · rw [Nat.testBit_lt_two_pow
        (Nat.lt_of_lt_of_le h2 (Nat.pow_le_pow_right (by omega) (by omega))),
      Nat.testBit_two_pow_of_ne (by omega)] at hbit
    simp at hbit

/-- Helper: a set with an in-bound value preserves the uniform getD bound. -/
theorem forall_getD_lt_set {l : List Nat} {B v : Nat}
    (hl : ∀ j, l.getD j 0 < B) (hv : v < B) (i : Nat) :
    ∀ j, (l.set i v).getD j 0 < B := by
  intro j
  rw [getD_set]
  split
  · exact hv
  · exact hl j

/-- Helper: a single phase-1 iteration preserves the galois invariant,
advancing the recorded position from i to i + 1. -/
theorem galoisPhase1Step_inv (m N : Nat) (p : List Nat) (hm : 1 ≤ m)
    (hN : N + 1 = 2 ^ m) (i : Nat) (hi : i < m) (st : List Nat × List Int)
    (h : GaloisInv m N i st) :
    GaloisInv m N (i + 1) (galoisPhase1Step m p st i) := by
  obtain ⟨hlen1, hlen2, hbound, h0, htab⟩ := h
  have hmN : m < N + 1 := by
    have := Nat.lt_two_pow m
    omega
  have hpow : (1 : Nat) <<< i = 2 ^ i := by rw [Nat.shiftLeft_eq, one_mul]
  have hvlt : (1 : Nat) <<< i < 2 ^ m := by
    rw [hpow]
    exact Nat.pow_lt_pow_right (by omega) hi
  have hilen : i < st.1.length := by omega
  have hvlen : (1 : Nat) <<< i < st.2.length := by omega
  unfold galoisPhase1Step
  have htab1 := tableInv_write i (1 <<< i) st.1 st.2 htab hilen hvlen
  have hbound1 := forall_getD_lt_set hbound hvlt i
  split
  · rename_i hp
    refine ⟨?_, ?_, ?_, ?_, ?_⟩
    · simp [List.length_set, hlen1]
    · simp [List.length_set, hlen2]
    · exact forall_getD_lt_set hbound1
        (Nat.xor_lt_two_pow (hbound1 m) hvlt) m
    · intro _
      rw [getD_set, if_neg (by intro ⟨hm0, _⟩; omega)]
      by_cases hi0 : i = 0
      · subst hi0
        rw [getD_set, if_pos ⟨rfl, by omega⟩]
        decide
      · rw [getD_set, if_neg (by intro ⟨he, _⟩; exact hi0 he)]
        exact h0 (by omega)
    · exact tableInv_set_hi (i + 1) m _ _ _ (by omega) htab1
  · refine ⟨?_, ?_, ?_, ?_, ?_⟩
    · simp [List.length_set, hlen1]
    · simp [List.length_set, hlen2]
    · exact forall_getD_lt_set hbound hvlt i
    · intro _
      by_cases hi0 : i = 0
      · subst hi0
        rw [getD_set, if_pos ⟨rfl, by omega⟩]
        decide
      · rw [getD_set, if_neg (by intro ⟨he, _⟩; exact hi0 he)]
        exact h0 (by omega)
    · exact htab1

/-- Helper: the whole phase-1 fold establishes the invariant at position j
for every prefix of the index range. -/
theorem galoisPhase1_inv (m N : Nat) (p : List Nat) (hm : 1 ≤ m)
    (hN : N + 1 = 2 ^ m) (j : Nat) (hj : j ≤ m) :
    GaloisInv m N j ((List.range j).foldl (galoisPhase1Step m p)
      (List.replicate (N + 1) 0, List.replicate (N + 1) 0)) := by
  induction j with
  | zero =>
    simp only [List.range_zero, List.foldl_nil]
    refine ⟨by simp, by simp, ?_, by omega, fun x hx hocc => ?_⟩
    · intro j
      have : (List.replicate (N + 1) (0 : Nat)).getD j 0 = 0 := by
        rcases Nat.lt_or_ge j (N + 1) with hlt | hge
        · rw [List.getD_eq_getElem _ _ (by simpa using hlt)]
          simp
        · rw [List.getD_eq_default]
          simp
          omega
      rw [this]
      exact Nat.pos_pow_of_pos m (by omega)
    · obtain ⟨i, hi, _⟩ := hocc
      exact absurd hi (Nat.not_lt_zero i)
  | succ j ih =>
    rw [List.range_succ, List.foldl_append, List.foldl_cons, List.foldl_nil]
    exact galoisPhase1Step_inv m N p hm hN j (by omega) _ (ih (by omega))

/-- Helper: a phase-2 iteration at position pos preserves the invariant. -/
theorem galoisStep_inv (m N pos : Nat) (hm : 1 ≤ m) (hN : N + 1 = 2 ^ m)
    (hpos : m + 1 ≤ pos) (hposN : pos < N) (st : List Nat × List Int)
    (h : GaloisInv m N pos st) :
    GaloisInv m N (pos + 1) (galoisStep m pos st.1 st.2) := by
  obtain ⟨hlen1, hlen2, hbound, h0, htab⟩ := h
  have hmask : (1 : Nat) <<< (m - 1) = 2 ^ (m - 1) := by
    rw [Nat.shiftLeft_eq, one_mul]
  have hvlt : (if st.1.getD (pos - 1) 0 ≥ 1 <<< (m - 1) then
      st.1.getD m 0 ^^^ ((st.1.getD (pos - 1) 0 ^^^ 1 <<< (m - 1)) <<< 1)
      else st.1.getD (pos - 1) 0 <<< 1) < 2 ^ m := by
    have hp2 : (2 : Nat) ^ (m - 1) * 2 = 2 ^ m := by
      rw [← Nat.pow_succ]
      congr 1
      omega
    split
    · rename_i hge
      rw [hmask] at hge ⊢
      have hclear := xor_top_clear hm hge (hbound (pos - 1))
      have : (st.1.getD (pos - 1) 0 ^^^ 2 ^ (m - 1)) <<< 1 < 2 ^ m := by
        rw [Nat.shiftLeft_eq, Nat.pow_one]
        omega
      exact Nat.xor_lt_two_pow (hbound m) this
    · rename_i hlt
      rw [hmask] at hlt
      push_neg at hlt
      rw [Nat.shiftLeft_eq, Nat.pow_one]
      omega
  unfold galoisStep
  refine ⟨?_, ?_, ?_, ?_, ?_⟩
  · simp [List.length_set, hlen1]
  · simp [List.length_set, hlen2]
  · exact forall_getD_lt_set hbound hvlt pos
  · intro _
    rw [getD_set, if_neg (by intro ⟨hp0, _⟩; omega)]
    exact h0 (by omega)
  · exact tableInv_write pos _ st.1 st.2 htab (by omega) (by rw [hlen2]; omega)

/-- Helper: the whole phase-2 fold carries the invariant from position
m + 1 to position m + 1 + kk. -/
theorem galoisPhase2_inv (m N : Nat) (hm : 1 ≤ m) (hN : N + 1 = 2 ^ m)
    (st0 : List Nat × List Int) (h0 : GaloisInv m N (m + 1) st0)
    (kk : Nat) (hkk : kk ≤ N - (m + 1)) :
    GaloisInv m N (m + 1 + kk) ((List.range kk).foldl
      (fun (st : List Nat × List Int) k => galoisStep m (m + 1 + k) st.1 st.2)
      st0) := by
  induction kk with
  | zero => exact h0
  | succ kk ih =>
    rw [List.range_succ, List.foldl_append, List.foldl_cons, List.foldl_nil]
    exact galoisStep_inv m N (m + 1 + kk) hm hN (by omega) (by omega) _
      (ih (by omega))

/-- C8 counterexample: the constructor accepts the non-primitive
polynomial x^4+x^3+x^2+x+1 at N = 15, and for the resulting codec the
claimed table inverse fails at x = 3 (3 is never produced as a power of
alpha, so index_of[3] is the untouched default 0 and alpha_to[0] = 1). -/
theorem C8_table_inverse_cex :
    (mkCodec 15 1 [1,1,1,1,1]).isOk = true ∧ codecNP.m = 4 ∧ (3 : Nat) < 2 ^ 4 ∧
    codecNP.alpha_to.getD ((codecNP.index_of.getD 3 0).toNat) 0 ≠ 3 := by decide

/-- C8 amended: for every table pair built by init_galois (any p), after
construction alpha_to[0] = 1, index_of[0] = -1, and every nonzero value x
that occurs in the alpha_to table satisfies alpha_to[index_of[x]] = x.
(For a primitive p -- in particular every built-in default -- the orbit of
alpha covers all of [1, 2^m), so this is exactly the claimed inverse
property; a non-primitive accepted p provides the counterexample.) -/
theorem C8_table_inverse (m N : Nat) (p : List Nat) (hm : 1 ≤ m)
    (hN : N + 1 = 2 ^ m) :
    (initGalois m N p).1.getD 0 0 = 1 ∧
    (initGalois m N p).2.getD 0 0 = -1 ∧
    ∀ x : Nat, x ≠ 0 → (∃ i, i < N ∧ (initGalois m N p).1.getD i 0 = x) →
      (initGalois m N p).1.getD ((initGalois m N p).2.getD x 0).toNat 0 = x := by
  have hmN : m < N + 1 := by
    have := Nat.lt_two_pow m
    omega
  simp only [initGalois, galoisPhase1]
  set F := (List.range m).foldl (galoisPhase1Step m p)
    (List.replicate (N + 1) 0, List.replicate (N + 1) 0) with hF
  have h1 := galoisPhase1_inv m N p hm hN m (Nat.le_refl m)
  rw [← hF] at h1
  obtain ⟨hlen1, hlen2, hbound, h0, htab⟩ := h1
  have hrec := tableInv_record m F.1 F.2 htab
    (by rw [hlen2]; have := hbound m; omega)
  have h2 : GaloisInv m N (m + 1) (F.1, F.2.set (F.1.getD m 0) (Int.ofNat m)) :=
    ⟨hlen1, by rw [List.length_set]; exact hlen2, hbound, fun _ => h0 hm, hrec⟩
  have h3 := galoisPhase2_inv m N hm hN _ h2 (N - (m + 1)) (Nat.le_refl _)
  obtain ⟨hflen1, hflen2, hfbound, hf0, hftab⟩ := h3
  refine ⟨hf0 (by omega), ?_, ?_⟩
  · rw [getD_set, if_pos ⟨rfl, by rw [hflen2]; omega⟩]
  · intro x hx hocc
    obtain ⟨i, hi, hvi⟩ := hocc
    obtain ⟨hnn, hlt, heq⟩ := hftab x hx ⟨i, by omega, hvi⟩
    rw [getD_set, if_neg (by intro ⟨h0x, _⟩; exact hx h0x.symm)]
    exact heq

/-- C8 witness: the amended table theorem applied to the default m = 4
tables, instantiated at the value 3 = alpha^4. -/
theorem C8_table_inverse_witness :
    (initGalois 4 15 (selectPolynomial 4)).1.getD
      ((initGalois 4 15 (selectPolynomial 4)).2.getD 3 0).toNat 0 = 3 :=
  (C8_table_inverse 4 15 (selectPolynomial 4) (by decide) (by decide)).2.2 3
    (by decide) ⟨4, by decide⟩

/-- Helper: xor of two bits stays a bit. -/
theorem xor_le_one {a b : Nat} (ha : a ≤ 1) (hb : b ≤ 1) : a ^^^ b ≤ 1 := by
  interval_cases a <;> interval_cases b <;> decide

/-- Helper: getD of a range-map. -/
theorem getD_range_map {α : Type _} (n j : Nat) (f : Nat → α) (d : α) :
    ((List.range n).map f).getD j d = if j < n then f j else d := by
  split
  · rename_i h
    rw [List.getD_eq_getElem _ _ (by simpa using h)]
    simp
  · rename_i h
    rw [List.getD_eq_default]
    simp
    omega

/-- Helper: the faithful __encode step agrees pointwise with the abstract
step on binary states. -/
theorem lfsrStep_eq_stepF (g : List Nat) (n : Nat) (par : List Nat)
    (r : Nat → Nat) (x : Nat) (hg : ∀ j, g.getD j 0 ≤ 1) (hx : x ≤ 1)
    (hr : ∀ j, par.getD j 0 = r j) (hrb : ∀ j, r j ≤ 1) :
    ∀ j, (lfsrStep g n par x).getD j 0 = stepF g n r x j := by
  intro j
  unfold lfsrStep stepF
  rw [getD_range_map]
  by_cases hj : j < n
  · rw [if_pos hj, if_pos hj]
    by_cases hj0 : j = 0
    · subst hj0
      rw [if_pos rfl, if_pos rfl]
      simp only [hr]
      have hf : x ^^^ r (n - 1) ≤ 1 := xor_le_one hx (hrb _)
      have hg0 : g.getD 0 0 ≤ 1 := hg 0
      rcases Nat.le_one_iff_eq_zero_or_eq_one.mp hf with hf0 | hf0 <;>
        rcases Nat.le_one_iff_eq_zero_or_eq_one.mp hg0 with hg1 | hg1 <;>
          rw [hf0, hg1] <;> decide
    · rw [if_neg hj0, if_neg hj0]
      simp only [hr]
  · rw [if_neg hj, if_neg hj]

/-- Helper: the init_fast_tables step agrees pointwise with the abstract
step on binary states. -/
theorem lutLfsrStep_eq_stepF (g : List Nat) (n : Nat) (par : List Nat)
    (r : Nat → Nat) (x : Nat) (hg : ∀ j, g.getD j 0 ≤ 1) (hx : x ≤ 1)
    (hr : ∀ j, par.getD j 0 = r j) (hrb : ∀ j, r j ≤ 1) :
    ∀ j, (lutLfsrStep g n par x).getD j 0 = stepF g n r x j := by
  intro j
  unfold lutLfsrStep stepF
  rw [getD_range_map]
  by_cases hj : j < n
  · rw [if_pos hj, if_pos hj]
    by_cases hj0 : j = 0
    · subst hj0
      rw [if_pos rfl, if_pos rfl]
      simp only [hr]
      have hf : x ^^^ r (n - 1) ≤ 1 := xor_le_one hx (hrb _)
      have hg0 : g.getD 0 0 ≤ 1 := hg 0
      rcases Nat.le_one_iff_eq_zero_or_eq_one.mp hf with hf0 | hf0 <;>
        rcases Nat.le_one_iff_eq_zero_or_eq_one.mp hg0 with hg1 | hg1 <;>
          rw [hf0, hg1] <;> decide
    · rw [if_neg hj0, if_neg hj0]
      simp only [hr]
  · rw [if_neg hj, if_neg hj]

/-- Helper: the abstract step keeps every state bit binary. -/
theorem stepF_bits (g : List Nat) (n : Nat) (r : Nat → Nat) (x : Nat)
    (_hg : ∀ j, g.getD j 0 ≤ 1) (hx : x ≤ 1) (hrb : ∀ j, r j ≤ 1) :
    ∀ j, stepF g n r x j ≤ 1 := by
  intro j
  unfold stepF
  have hf : x ^^^ r (n - 1) ≤ 1 := xor_le_one hx (hrb _)
  split
  · split
    · exact Nat.le_trans Nat.and_le_right hf
    · exact xor_le_one (hrb _) (Nat.le_trans Nat.and_le_right hf)
  · exact Nat.zero_le 1

/-- Helper: iterated abstract steps keep every state bit binary. -/
theorem stepsF_bits (g : List Nat) (n : Nat) (inputs : List Nat)
    (r : Nat → Nat) (hg : ∀ j, g.getD j 0 ≤ 1)
    (hin : ∀ x ∈ inputs, x ≤ 1) (hrb : ∀ j, r j ≤ 1) :
    ∀ j, stepsF g n r inputs j ≤ 1 := by
  induction inputs generalizing r with
  | nil => exact hrb
  | cons x l ih =>
    exact ih (stepF g n r x) (fun y hy => hin y (List.mem_cons_of_mem x hy))
      (stepF_bits g n r x hg (hin x (List.mem_cons_self x l)) hrb)

/-- Helper: the faithful __encode fold agrees pointwise with the abstract
iterated steps on binary states. -/
theorem foldl_lfsrStep_eq_stepsF (g : List Nat) (n : Nat)
    (inputs : List Nat) (par : List Nat) (r : Nat → Nat)
    (hg : ∀ j, g.getD j 0 ≤ 1) (hin : ∀ x ∈ inputs, x ≤ 1)
    (hr : ∀ j, par.getD j 0 = r j) (hrb : ∀ j, r j ≤ 1) :
    ∀ j, (inputs.foldl (lfsrStep g n) par).getD j 0 = stepsF g n r inputs j := by
  induction inputs generalizing par r with
  | nil => exact hr
  | cons x l ih =>
    have hx : x ≤ 1 := hin x (List.mem_cons_self x l)
    exact ih (lfsrStep g n par x) (stepF g n r x)
      (fun y hy => hin y (List.mem_cons_of_mem x hy))
      (lfsrStep_eq_stepF g n par r x hg hx hr hrb)
      (stepF_bits g n r x hg hx hrb)

/-- Helper: the init_fast_tables fold agrees pointwise with the abstract
iterated steps on binary states. -/
theorem foldl_lutLfsrStep_eq_stepsF (g : List Nat) (n : Nat)
    (inputs : List Nat) (par : List Nat) (r : Nat → Nat)
    (hg : ∀ j, g.getD j 0 ≤ 1) (hin : ∀ x ∈ inputs, x ≤ 1)
    (hr : ∀ j, par.getD j 0 = r j) (hrb : ∀ j, r j ≤ 1) :
    ∀ j, (inputs.foldl (lutLfsrStep g n) par).getD j 0 = stepsF g n r inputs j := by
  induction inputs generalizing par r with
  | nil => exact hr
  | cons x l ih =>
    have hx : x ≤ 1 := hin x (List.mem_cons_self x l)
    exact ih (lutLfsrStep g n par x) (stepF g n r x)
      (fun y hy => hin y (List.mem_cons_of_mem x hy))
      (lutLfsrStep_eq_stepF g n par r x hg hx hr hrb)
      (stepF_bits g n r x hg hx hrb)

/-- Helper: the abstract step only depends on the state pointwise. -/
theorem stepF_congr (g : List Nat) (n : Nat) (r r2 : Nat → Nat) (x : Nat)
    (h : ∀ j, r j = r2 j) : ∀ j, stepF g n r x j = stepF g n r2 x j := by
  intro j
  unfold stepF
  rw [h, h]

/-- Helper: iterated abstract steps only depend on the state pointwise. -/
theorem stepsF_congr (g : List Nat) (n : Nat) (inputs : List Nat)
    (r r2 : Nat → Nat) (h : ∀ j, r j = r2 j) :
    ∀ j, stepsF g n r inputs j = stepsF g n r2 inputs j := by
  induction inputs generalizing r r2 with
  | nil => exact h
  | cons x l ih => exact ih (stepF g n r x) (stepF g n r2 x) (stepF_congr g n r r2 x h)

/-- Helper: the four-way xor rearrangement used by the linearity proofs. -/
theorem xor_mix (a b c d : Nat) :
    (a ^^^ b) ^^^ (c ^^^ d) = (a ^^^ c) ^^^ (b ^^^ d) := by
  rw [Nat.xor_assoc, Nat.xor_assoc]
  congr 1
  rw [← Nat.xor_assoc, ← Nat.xor_assoc]
  congr 1
  exact Nat.xor_comm b c

/-- Helper: one abstract step is GF(2)-linear in (state, input). -/
theorem stepF_linear (g : List Nat) (n : Nat) (r1 r2 : Nat → Nat)
    (x1 x2 : Nat) :
    ∀ j, stepF g n (fun j2 => r1 j2 ^^^ r2 j2) (x1 ^^^ x2) j
      = stepF g n r1 x1 j ^^^ stepF g n r2 x2 j := by
  intro j
  unfold stepF
  have hfd : (x1 ^^^ x2) ^^^ (r1 (n - 1) ^^^ r2 (n - 1))
      = (x1 ^^^ r1 (n - 1)) ^^^ (x2 ^^^ r2 (n - 1)) := xor_mix ..
  by_cases hj : j < n
  · rw [if_pos hj, if_pos hj, if_pos hj]
    by_cases hj0 : j = 0
    · rw [if_pos hj0, if_pos hj0, if_pos hj0, hfd, Nat.and_xor_distrib_left]
    · rw [if_neg hj0, if_neg hj0, if_neg hj0, hfd, Nat.and_xor_distrib_left]
      exact xor_mix ..
  · rw [if_neg hj, if_neg hj, if_neg hj]
    decide

/-- Helper: iterated abstract steps are GF(2)-linear in (state, inputs). -/
theorem stepsF_linear (g : List Nat) (n : Nat) (in1 in2 : List Nat)
    (r1 r2 : Nat → Nat) (hlen : in1.length = in2.length) :
    ∀ j, stepsF g n (fun j2 => r1 j2 ^^^ r2 j2)
        (List.zipWith (fun a b => a ^^^ b) in1 in2) j
      = stepsF g n r1 in1 j ^^^ stepsF g n r2 in2 j := by
  induction in1 generalizing in2 r1 r2 with
  | nil =>
    rw [List.length_nil] at hlen
    rw [List.eq_nil_of_length_eq_zero hlen.symm]
    intro j
    rfl
  | cons x1 l1 ih =>
    cases in2 with
    | nil => simp at hlen
    | cons x2 l2 =>
      intro j
      have hlen2 : l1.length = l2.length := by simpa using hlen
      show stepsF g n (stepF g n (fun j2 => r1 j2 ^^^ r2 j2) (x1 ^^^ x2))
        (List.zipWith (fun a b => a ^^^ b) l1 l2) j = _
      rw [stepsF_congr g n _ _ _ (stepF_linear g n r1 r2 x1 x2)]
      exact ih l2 (stepF g n r1 x1) (stepF g n r2 x2) hlen2 j

/-- Helper: feeding the state's own top 8 bits back as inputs makes every
feedback zero, so k abstract steps reduce to a pure shift by k. -/
theorem stepsF_self_feed (g : List Nat) (n : Nat) (hn : 1 ≤ n)
    (r : Nat → Nat) (hsupp : ∀ j, n ≤ j → r j = 0) (t8 : Nat)
    (ht8 : ∀ k2, k2 < 8 →
      (t8 >>> (7 - k2)) &&& 1 = (if k2 < n then r (n - 1 - k2) else 0)) :
    ∀ k, k ≤ 8 → ∀ j,
      stepsF g n r ((List.range k).map (fun k2 => (t8 >>> (7 - k2)) &&& 1)) j
        = if k ≤ j ∧ j < n then r (j - k) else 0 := by
  intro k
  induction k with
  | zero =>
    intro _ j
    show r j = _
    by_cases hj : j < n
    · rw [if_pos ⟨Nat.zero_le j, hj⟩, Nat.sub_zero]
    · rw [if_neg (by omega)]
      exact hsupp j (by omega)
  | succ k ih =>
    intro hk j
    rw [List.range_succ, List.map_append]
    simp only [List.map_cons, List.map_nil]
    have hstep : stepsF g n r
        (((List.range k).map (fun k2 => (t8 >>> (7 - k2)) &&& 1)) ++
          [(t8 >>> (7 - k)) &&& 1]) j
        = stepF g n (stepsF g n r
            ((List.range k).map (fun k2 => (t8 >>> (7 - k2)) &&& 1)))
            ((t8 >>> (7 - k)) &&& 1) j := by
      unfold stepsF
      rw [List.foldl_append, List.foldl_cons, List.foldl_nil]
    rw [hstep]
    rw [stepF_congr g n _ (fun j2 => if k ≤ j2 ∧ j2 < n then r (j2 - k) else 0) _
      (ih (by omega))]
    have hfb : (t8 >>> (7 - k)) &&& 1 ^^^
        (if k ≤ n - 1 ∧ n - 1 < n then r (n - 1 - k) else 0) = 0 := by
      rw [ht8 k (by omega)]
      by_cases hkn : k < n
      · rw [if_pos hkn, if_pos ⟨by omega, by omega⟩, Nat.xor_self]
      · rw [if_neg hkn, if_neg (by omega)]
        decide
    unfold stepF
    beta_reduce
    rw [hfb]
    by_cases hj : j < n
    · rw [if_pos hj]
      by_cases hj0 : j = 0
      · subst hj0
        rw [if_pos rfl, if_neg (by omega), Nat.and_zero]
      · rw [if_neg hj0, Nat.and_zero, Nat.xor_zero]
        by_cases hkj : k + 1 ≤ j
        · rw [if_pos ⟨by omega, by omega⟩, if_pos ⟨by omega, hj⟩]
          congr 1
          omega
        · rw [if_neg (by omega), if_neg (by omega)]
    · rw [if_neg hj, if_neg (by omega)]

/-- Helper: testBit characterization of the bit-accumulating folds used by
getTopByte, packRemToWords and wordsToEccBytes. -/
theorem orFold_testBit (P : Nat → Prop) [DecidablePred P] (k : Nat)
    (init j : Nat) :
    (((List.range k).foldl
        (fun res i => if P i then res ||| (1 <<< i) else res) init).testBit j
      = true)
      ↔ (init.testBit j = true ∨ (j < k ∧ P j)) := by
  induction k with
  | zero => simp
  | succ k ih =>
    rw [List.range_succ, List.foldl_append, List.foldl_cons, List.foldl_nil]
    by_cases hp : P k
    · rw [if_pos hp, Nat.testBit_or, Bool.or_eq_true, ih]
      have h2 : (1 : Nat) <<< k = 2 ^ k := by rw [Nat.shiftLeft_eq, one_mul]
      rw [h2, Nat.testBit_two_pow]
      constructor
      · rintro ((h | h) | h)
        · exact .inl h
        · exact .inr ⟨by omega, h.2⟩
        · have hkj : k = j := by simpa using h
          exact .inr ⟨by omega, hkj ▸ hp⟩
      · rintro (h | ⟨hjk, hpj⟩)
        · exact .inl (.inl h)
        · by_cases hje : j = k
          · exact .inr (by simp [hje])
          · exact .inl (.inr ⟨by omega, hpj⟩)
    · rw [if_neg hp, ih]
      constructor
      · rintro (h | ⟨hjk, hpj⟩)
        · exact .inl h
        · exact .inr ⟨by omega, hpj⟩
      · rintro (h | ⟨hjk, hpj⟩)
        · exact .inl h
        · refine .inr ⟨?_, hpj⟩
          rcases Nat.lt_succ_iff_lt_or_eq.mp hjk with h2 | h2
          · exact h2
          · exact absurd (h2 ▸ hpj) hp

/-- Helper: extracting one bit as a 0/1 value equals the testBit view. -/
theorem shift_and_one (x m : Nat) :
    (x >>> m) &&& 1 = if x.testBit m = true then 1 else 0 := by
  have h1 : x.testBit m = decide ((x >>> m) % 2 = 1) := by
    have h2 : x.testBit m = (x >>> m).testBit 0 := by
      rw [Nat.testBit_shiftRight, Nat.add_zero]
    rw [h2, Nat.testBit_zero]
  rw [Nat.and_one_is_mod, h1]
  rcases Nat.mod_two_eq_zero_or_one (x >>> m) with h | h <;> simp [h]

/-- Helper: wbit as an ite on the testBit view. -/
theorem wbit_eq_ite (par : List Nat) (i : Nat) :
    wbit par i = if (par.getD (i / 32) 0).testBit (i % 32) = true then 1 else 0 :=
  shift_and_one ..

/-- Helper: the source guard form of a bit test. -/
theorem and_shift_ne_zero (x b : Nat) :
    (x &&& (1 <<< b) ≠ 0) ↔ x.testBit b = true := by
  have h2 : (1 : Nat) <<< b = 2 ^ b := by rw [Nat.shiftLeft_eq, one_mul]
  rw [h2]
  constructor
  · intro h
    by_contra hbit
    have hfalse : x.testBit b = false := by
      cases hxb : x.testBit b
      · rfl
      · exact absurd hxb hbit
    apply h
    apply Nat.eq_of_testBit_eq
    intro i
    rw [Nat.testBit_and, Nat.testBit_two_pow, Nat.zero_testBit]
    by_cases hib : b = i
    · rw [← hib, hfalse]
      simp
    · rw [decide_eq_false hib]
      simp
  · intro hbit h0
    have hone : (x &&& 2 ^ b).testBit b = true := by
      rw [Nat.testBit_and, hbit, Nat.testBit_two_pow, decide_eq_true rfl]
      rfl
    rw [h0, Nat.zero_testBit] at hone
    cases hone

/-- Helper: closed form of the carrying byte/bit shift fold over the word
array (sh bits in, 32 - sh bits of carry out per word). -/
theorem shiftFold_closed (sh rs : Nat) (par : List Nat) :
    ∀ (acc : List Nat) (c : Nat),
    (par.foldl (fun (st : List Nat × Nat) w =>
      (st.1 ++ [((w <<< sh) % 2 ^ 32) ||| st.2], w >>> rs)) (acc, c)).1 =
    acc ++ (List.range par.length).map (fun k =>
      ((par.getD k 0 <<< sh) % 2 ^ 32) |||
        (if k = 0 then c else par.getD (k - 1) 0 >>> rs)) := by
  induction par with
  | nil => intro acc c; simp
  | cons w rest ih =>
    intro acc c
    rw [List.foldl_cons]
    rw [ih (acc ++ [((w <<< sh) % 2 ^ 32) ||| c]) (w >>> rs)]
    rw [List.append_assoc]
    congr 1
    rw [List.length_cons, List.range_succ_eq_map, List.map_cons]
    rw [List.singleton_append]
    congr 1
    rw [List.map_map]
    apply List.map_congr_left
    intro a ha
    simp only [Function.comp]
    rcases a with _ | a2 <;> simp

/-- Helper: bit view of the word-array left shift by sh bits (sh + rs =
32), for bounded words. -/
theorem wbit_shiftFold (sh rs : Nat) (hsh : 1 ≤ sh) (hsr : sh + rs = 32)
    (par : List Nat) (hw : ∀ j, par.getD j 0 < 2 ^ 32) (i : Nat)
    (hi : i / 32 < par.length) :
    wbit ((par.foldl (fun (st : List Nat × Nat) w =>
        (st.1 ++ [((w <<< sh) % 2 ^ 32) ||| st.2], w >>> rs)) ([], 0)).1) i
      = if sh ≤ i then wbit par (i - sh) else 0 := by
  rw [shiftFold_closed, List.nil_append]
  rw [wbit_eq_ite, getD_range_map, if_pos hi]
  have hdm := Nat.div_add_mod i 32
  have hm : i % 32 < 32 := Nat.mod_lt i (by omega)
  rw [Nat.testBit_or, Nat.testBit_mod_two_pow, Nat.testBit_shiftLeft]
  by_cases hb : sh ≤ i % 32
  · have hbit2 : (if i / 32 = 0 then 0
        else par.getD (i / 32 - 1) 0 >>> rs).testBit (i % 32) = false := by
      split
      · exact Nat.zero_testBit _
      · rw [Nat.testBit_shiftRight]
        exact Nat.testBit_lt_two_pow
          (Nat.lt_of_lt_of_le (hw _) (Nat.pow_le_pow_right (by omega) (by omega)))
    rw [hbit2]
    have hih : (i - sh) / 32 = i / 32 ∧ (i - sh) % 32 = i % 32 - sh := by
      have he : i - sh = 32 * (i / 32) + (i % 32 - sh) := by omega
      constructor
      · rw [he, Nat.mul_add_div (by omega),
          Nat.div_eq_of_lt (show i % 32 - sh < 32 by omega)]
        omega
      · rw [he, Nat.mul_add_mod, Nat.mod_eq_of_lt (show i % 32 - sh < 32 by omega)]
    rw [if_pos (show sh ≤ i by omega), wbit_eq_ite, hih.1, hih.2]
    simp only [Bool.or_false]
    have : (decide (i % 32 < 32) && (decide (i % 32 ≥ sh) &&
        (par.getD (i / 32) 0).testBit (i % 32 - sh)))
        = (par.getD (i / 32) 0).testBit (i % 32 - sh) := by
      rw [decide_eq_true (show i % 32 < 32 by omega),
        decide_eq_true (show i % 32 ≥ sh by omega)]
      simp
    rw [this]
  · have hbit1 : (decide (i % 32 < 32) && (decide (i % 32 ≥ sh) &&
        (par.getD (i / 32) 0).testBit (i % 32 - sh))) = false := by
      rw [decide_eq_false (show ¬ i % 32 ≥ sh by omega)]
      simp
    rw [hbit1]
    simp only [Bool.false_or]
    by_cases hk0 : i / 32 = 0
    · rw [if_pos hk0, Nat.zero_testBit]
      rw [if_neg (show ¬ sh ≤ i by omega)]
      decide
    · rw [if_neg hk0, Nat.testBit_shiftRight]
      have hih : (i - sh) / 32 = i / 32 - 1 ∧ (i - sh) % 32 = rs + i % 32 := by
        have he : i - sh = 32 * (i / 32 - 1) + (rs + i % 32) := by omega
        constructor
        · rw [he, Nat.mul_add_div (by omega),
            Nat.div_eq_of_lt (show rs + i % 32 < 32 by omega)]
          omega
        · rw [he, Nat.mul_add_mod, Nat.mod_eq_of_lt (show rs + i % 32 < 32 by omega)]
      rw [if_pos (show sh ≤ i by omega), wbit_eq_ite, hih.1, hih.2]

/-- Helper: wbit = 1 phrased through the source guard. -/
theorem wbit_one_guard (par : List Nat) (x : Nat) :
    wbit par x = 1 ↔ par.getD (x / 32) 0 &&& (1 <<< (x % 32)) ≠ 0 := by
  rw [wbit_eq_ite, and_shift_ne_zero]
  split
  · rename_i h
    exact iff_of_true rfl h
  · rename_i h
    exact iff_of_false (by decide) h

/-- Helper: bit view of apply_mask. -/
theorem wbit_applyMask (par : List Nat) (n i : Nat) :
    wbit (applyMask par n) i = if i < n then wbit par i else 0 := by
  unfold applyMask
  rw [wbit_eq_ite, getD_range_map]
  have hdm := Nat.div_add_mod i 32
  have hm : i % 32 < 32 := Nat.mod_lt i (by omega)
  by_cases hk : i / 32 < par.length
  · rw [if_pos hk]
    by_cases h1 : n ≤ i / 32 * 32
    · rw [if_pos h1, Nat.zero_testBit, if_neg (show ¬ i < n by omega)]
      decide
    · rw [if_neg h1]
      by_cases h2 : n < i / 32 * 32 + 32
      · rw [if_pos h2]
        have hs : (1 : Nat) <<< (n - i / 32 * 32) = 2 ^ (n - i / 32 * 32) := by
          rw [Nat.shiftLeft_eq, one_mul]
        rw [hs, Nat.testBit_and, Nat.testBit_two_pow_sub_one]
        by_cases hin : i < n
        · rw [if_pos hin, wbit_eq_ite,
            decide_eq_true (show i % 32 < n - i / 32 * 32 by omega)]
          simp
        · rw [if_neg hin,
            decide_eq_false (show ¬ i % 32 < n - i / 32 * 32 by omega)]
          simp
      · rw [if_neg h2, if_pos (show i < n by omega), wbit_eq_ite]
  · rw [if_neg hk, Nat.zero_testBit]
    have hz : wbit par i = 0 := by
      rw [wbit_eq_ite, List.getD_eq_default _ _ (by omega), Nat.zero_testBit]
      decide
    rw [hz]
    simp

/-- Helper: bit view of the per-word xor of the fast-encode byte loop. -/
theorem wbit_zipxor (par lut : List Nat) (W i : Nat) (hiW : i / 32 < W) :
    wbit ((List.range W).map (fun w => par.getD w 0 ^^^ lut.getD w 0)) i
      = wbit par i ^^^ wbit lut i := by
  rw [wbit_eq_ite, getD_range_map, if_pos hiW, Nat.testBit_xor,
    wbit_eq_ite, wbit_eq_ite]
  cases h1 : (par.getD (i / 32) 0).testBit (i % 32) <;>
    cases h2 : (lut.getD (i / 32) 0).testBit (i % 32) <;> decide

/-- Helper: bit k (MSB first) of the get_top_byte result. -/
theorem getTopByte_bit (par : List Nat) (n k : Nat) (hk : k < 8) :
    (getTopByte par n >>> (7 - k)) &&& 1
      = if 8 ≤ n + (7 - k) ∧ wbit par (n + (7 - k) - 8) = 1 then 1 else 0 := by
  rw [shift_and_one]
  unfold getTopByte
  have hiff := orFold_testBit
    (fun i => 8 ≤ n + i ∧
      par.getD ((n + i - 8) / 32) 0 &&& (1 <<< ((n + i - 8) % 32)) ≠ 0)
    8 0 (7 - k)
  simp only [Nat.zero_testBit, Bool.false_eq_true, false_or] at hiff
  by_cases hcond : 8 ≤ n + (7 - k) ∧ wbit par (n + (7 - k) - 8) = 1
  · rw [if_pos hcond, if_pos (hiff.mpr
      ⟨by omega, hcond.1, (wbit_one_guard par (n + (7 - k) - 8)).mp hcond.2⟩)]
  · rw [if_neg hcond, if_neg (fun hbit => hcond
      ⟨(hiff.mp hbit).2.1, (wbit_one_guard ..).mpr (hiff.mp hbit).2.2⟩)]

/-- Helper: bit view of the packed LUT remainder words. -/
theorem wbit_packRemToWords (rem : List Nat) (n W i : Nat) (hiW : i / 32 < W) :
    wbit (packRemToWords rem n W) i
      = if i < n ∧ rem.getD i 0 ≠ 0 then 1 else 0 := by
  unfold packRemToWords
  rw [wbit_eq_ite, getD_range_map, if_pos hiW]
  have hm : i % 32 < 32 := Nat.mod_lt i (by omega)
  have hiff := orFold_testBit
    (fun b => i / 32 * 32 + b < n ∧ rem.getD (i / 32 * 32 + b) 0 ≠ 0)
    32 0 (i % 32)
  simp only [Nat.zero_testBit, Bool.false_eq_true, false_or] at hiff
  rw [show i / 32 * 32 + i % 32 = i from by omega] at hiff
  by_cases hcond : i < n ∧ rem.getD i 0 ≠ 0
  · rw [if_pos (hiff.mpr ⟨hm, hcond⟩), if_pos hcond]
  · rw [if_neg (fun hbit => hcond (hiff.mp hbit).2), if_neg hcond]

/-- Helper: bit b of ecc byte k of the fast-encode output packing. -/
theorem eccByte_bit (par : List Nat) (n eB k b : Nat) (hk : k < eB)
    (hb : b < 8) :
    ((wordsToEccBytes par n eB).getD k 0 >>> b) &&& 1
      = if k * 8 + b < n ∧ wbit par (k * 8 + b) = 1 then 1 else 0 := by
  rw [shift_and_one]
  unfold wordsToEccBytes
  rw [getD_range_map, if_pos hk]
  have hiff := orFold_testBit
    (fun b2 => k * 8 + b2 < n ∧
      par.getD ((k * 8 + b2) / 32) 0 &&& (1 <<< ((k * 8 + b2) % 32)) ≠ 0)
    8 0 b
  simp only [Nat.zero_testBit, Bool.false_eq_true, false_or] at hiff
  by_cases hcond : k * 8 + b < n ∧ wbit par (k * 8 + b) = 1
  · rw [if_pos (hiff.mpr ⟨hb, hcond.1,
      (wbit_one_guard par (k * 8 + b)).mp hcond.2⟩), if_pos hcond]
  · rw [if_neg (fun hbit => hcond ⟨(hiff.mp hbit).2.1,
      (wbit_one_guard par (k * 8 + b)).mpr (hiff.mp hbit).2.2⟩), if_neg hcond]

/-- Helper: getD of a zero replicate is zero. -/
theorem getD_replicate_zero (n j : Nat) :
    (List.replicate n (0 : Nat)).getD j 0 = 0 := by
  rcases Nat.lt_or_ge j n with h | h
  · rw [List.getD_eq_getElem _ _ (by simpa using h)]
    simp
  · rw [List.getD_eq_default _ _ (by simpa using h)]

/-- Helper: extracted bits are binary. -/
theorem bit_le_one (x s : Nat) : (x >>> s) &&& 1 ≤ 1 := Nat.and_le_right

/-- Helper: every entry of a MSB-first byte bit list is binary. -/
theorem byteBitsMSB_le_one (b : Nat) : ∀ x ∈ byteBitsMSB b, x ≤ 1 := by
  intro x hx
  unfold byteBitsMSB at hx
  rcases List.mem_map.mp hx with ⟨k, _, rfl⟩
  exact bit_le_one ..

/-- Helper: length of a byte bit list. -/
theorem byteBitsMSB_length (b : Nat) : (byteBitsMSB b).length = 8 := by
  simp [byteBitsMSB]

/-- Helper: bit extraction distributes over xor. -/
theorem bit_xor (x y s : Nat) :
    ((x ^^^ y) >>> s) &&& 1 = ((x >>> s) &&& 1) ^^^ ((y >>> s) &&& 1) := by
  rw [shift_and_one, shift_and_one, shift_and_one, Nat.testBit_xor]
  cases h1 : x.testBit s <;> cases h2 : y.testBit s <;> decide

/-- Helper: the bit-accumulating folds stay below 2^k. -/
theorem orFold_lt (P : Nat → Prop) [DecidablePred P] (k : Nat) :
    ((List.range k).foldl
        (fun res i => if P i then res ||| (1 <<< i) else res) 0) < 2 ^ k := by
  by_contra hge
  push_neg at hge
  obtain ⟨i, hi, hbit⟩ := Nat.ge_two_pow_implies_high_bit_true hge
  have h2 := (orFold_testBit P k 0 i).mp hbit
  simp only [Nat.zero_testBit, Bool.false_eq_true, false_or] at h2
  omega

/-- Helper: iterated abstract steps on at least one input vanish at or
above n; so does any state reached from a supported state. -/
theorem stepF_supp (g : List Nat) (n : Nat) (r : Nat → Nat) (x : Nat) :
    ∀ j, n ≤ j → stepF g n r x j = 0 := by
  intro j hj
  unfold stepF
  rw [if_neg (by omega)]

/-- Helper: iterated abstract steps preserve support. -/
theorem stepsF_supp (g : List Nat) (n : Nat) (inputs : List Nat)
    (r : Nat → Nat) (hsupp : ∀ j, n ≤ j → r j = 0) :
    ∀ j, n ≤ j → stepsF g n r inputs j = 0 := by
  induction inputs generalizing r with
  | nil => exact hsupp
  | cons x l ih => exact ih (stepF g n r x) (stepF_supp g n r x)

/-- Helper: the carrying shift fold preserves the word-array length. -/
theorem shiftFold_length (sh rs : Nat) (par : List Nat) :
    ((par.foldl (fun (st : List Nat × Nat) w =>
        (st.1 ++ [((w <<< sh) % 2 ^ 32) ||| st.2], w >>> rs)) ([], 0)).1).length
      = par.length := by
  rw [shiftFold_closed, List.nil_append, List.length_map, List.length_range]

/-- Helper: the carrying shift fold keeps every word below 2^32. -/
theorem shiftFold_bound (sh rs : Nat) (par : List Nat)
    (hw : ∀ j, par.getD j 0 < 2 ^ 32) :
    ∀ j, ((par.foldl (fun (st : List Nat × Nat) w =>
        (st.1 ++ [((w <<< sh) % 2 ^ 32) ||| st.2], w >>> rs)) ([], 0)).1).getD j 0
      < 2 ^ 32 := by
  intro j
  rw [shiftFold_closed, List.nil_append, getD_range_map]
  by_cases hj : j < par.length
  · rw [if_pos hj]
    apply Nat.or_lt_two_pow
    · exact Nat.mod_lt _ (by norm_num)
    · split
      · norm_num
      · calc par.getD (j - 1) 0 >>> rs ≤ par.getD (j - 1) 0 := by
              rw [Nat.shiftRight_eq_div_pow]
              exact Nat.div_le_self ..
          _ < 2 ^ 32 := hw _
  · rw [if_neg hj]
    norm_num

/-- Helper: apply_mask preserves the word-array length. -/
theorem applyMask_length (par : List Nat) (n : Nat) :
    (applyMask par n).length = par.length := by
  unfold applyMask
  rw [List.length_map, List.length_range]

/-- Helper: apply_mask keeps every word below 2^32. -/
theorem applyMask_bound (par : List Nat) (n : Nat)
    (hw : ∀ j, par.getD j 0 < 2 ^ 32) :
    ∀ j, (applyMask par n).getD j 0 < 2 ^ 32 := by
  intro j
  unfold applyMask
  rw [getD_range_map]
  by_cases hj : j < par.length
  · rw [if_pos hj]
    dsimp only
    split
    · norm_num
    · split
      · exact Nat.lt_of_le_of_lt Nat.and_le_left (hw j)
      · exact hw j
  · rw [if_neg hj]
    norm_num

/-- Helper: the LUT word packing has length eccWords. -/
theorem packRemToWords_length (rem : List Nat) (n W : Nat) :
    (packRemToWords rem n W).length = W := by
  unfold packRemToWords
  rw [List.length_map, List.length_range]

/-- Helper: the LUT word packing keeps every word below 2^32. -/
theorem packRemToWords_bound (rem : List Nat) (n W : Nat) :
    ∀ j, (packRemToWords rem n W).getD j 0 < 2 ^ 32 := by
  intro j
  unfold packRemToWords
  rw [getD_range_map]
  by_cases hj : j < W
  · rw [if_pos hj]
    exact orFold_lt (fun b => j * 32 + b < n ∧ rem.getD (j * 32 + b) 0 ≠ 0) 32
  · rw [if_neg hj]
    norm_num

/-- Helper: an encode_lut entry has length eccWords. -/
theorem encodeLutEntry_length (g : List Nat) (n W i : Nat) :
    (encodeLutEntry g n W i).length = W :=
  packRemToWords_length _ n W

/-- Helper: an encode_lut entry keeps every word below 2^32. -/
theorem encodeLutEntry_bound (g : List Nat) (n W i : Nat) :
    ∀ j, (encodeLutEntry g n W i).getD j 0 < 2 ^ 32 :=
  packRemToWords_bound _ n W

/-- Helper: a full-byte step keeps the word-array length at eccWords. -/
theorem byteStepW_length (g : List Nat) (n W : Nat) (par : List Nat) (bb : Nat) :
    (byteStepW g n W par bb).length = W := by
  unfold byteStepW
  rw [List.length_map, List.length_range]

/-- Helper: a full-byte step keeps every word below 2^32. -/
theorem byteStepW_bound (g : List Nat) (n W : Nat) (par : List Nat) (bb : Nat)
    (hw : ∀ j, par.getD j 0 < 2 ^ 32) :
    ∀ j, (byteStepW g n W par bb).getD j 0 < 2 ^ 32 := by
  intro j
  unfold byteStepW
  rw [getD_range_map]
  by_cases hj : j < W
  · rw [if_pos hj]
    exact Nat.xor_lt_two_pow
      (applyMask_bound _ n (shiftFold_bound 8 24 par hw) j)
      (encodeLutEntry_bound g n W _ j)
  · rw [if_neg hj]
    norm_num

/-- Helper: MSB bit lists turn xor of bytes into pointwise xor. -/
theorem byteBitsMSB_xor (x y : Nat) :
    List.zipWith (fun a b => a ^^^ b) (byteBitsMSB x) (byteBitsMSB y)
      = byteBitsMSB (x ^^^ y) := by
  unfold byteBitsMSB
  rw [List.zipWith_map, List.zipWith_same]
  apply List.map_congr_left
  intro k _
  exact (bit_xor x y (7 - k)).symm

/-- Helper: the top byte read by the fast encoder lists the abstract
state's top 8 bits, MSB first. -/
theorem getTopByte_state (par : List Nat) (n : Nat) (hn : 1 ≤ n)
    (r : Nat → Nat) (hcorr : ∀ i, i < n → wbit par i = r i)
    (hrb : ∀ j, r j ≤ 1) :
    ∀ k2, k2 < 8 → (getTopByte par n >>> (7 - k2)) &&& 1
      = if k2 < n then r (n - 1 - k2) else 0 := by
  intro k2 hk2
  rw [getTopByte_bit par n k2 hk2]
  by_cases hkn : k2 < n
  · rw [if_pos hkn]
    have hpos : n + (7 - k2) - 8 = n - 1 - k2 := by omega
    have hwr : wbit par (n - 1 - k2) = r (n - 1 - k2) := hcorr _ (by omega)
    rcases Nat.le_one_iff_eq_zero_or_eq_one.mp (hrb (n - 1 - k2)) with h0 | h1
    · rw [h0, if_neg]
      intro hc
      rw [hpos, hwr, h0] at hc
      exact absurd hc.2 (by decide)
    · rw [h1, if_pos ⟨by omega, by rw [hpos, hwr, h1]⟩]
  · rw [if_neg hkn, if_neg]
    intro hc
    have h8 := hc.1
    omega

/-- Helper: one full-byte step of the fast encoder realizes eight abstract
LFSR steps fed the byte's bits, MSB first. -/
theorem byteStepW_corr (g : List Nat) (n W : Nat) (hg : ∀ j, g.getD j 0 ≤ 1)
    (hn : 1 ≤ n) (hnW : n ≤ 32 * W) (par : List Nat) (r : Nat → Nat)
    (hlen : par.length = W) (hw : ∀ j, par.getD j 0 < 2 ^ 32)
    (hcorr : ∀ i, i < n → wbit par i = r i)
    (hsupp : ∀ j, n ≤ j → r j = 0) (hrb : ∀ j, r j ≤ 1) (bb : Nat) :
    ∀ i, i < n → wbit (byteStepW g n W par bb) i
      = stepsF g n r (byteBitsMSB bb) i := by
  intro i hi
  have hiW : i / 32 < W := Nat.div_lt_of_lt_mul (by omega)
  have ht8bb : getTopByte par n ^^^ (getTopByte par n ^^^ bb) = bb := by
    rw [← Nat.xor_assoc, Nat.xor_self, Nat.zero_xor]
  have hsplit : stepsF g n r (byteBitsMSB bb) i
      = stepsF g n r (byteBitsMSB (getTopByte par n)) i ^^^
        stepsF g n zeroF (byteBitsMSB (getTopByte par n ^^^ bb)) i := by
    rw [← stepsF_linear g n _ _ r zeroF
      (by rw [byteBitsMSB_length, byteBitsMSB_length]) i]
    rw [byteBitsMSB_xor, ht8bb]
    exact stepsF_congr g n _ r (fun j => r j ^^^ zeroF j)
      (fun j => (Nat.xor_zero (r j)).symm) i
  have ht8 := getTopByte_state par n hn r hcorr hrb
  have hshift : wbit (applyMask (shiftLeft8 par) n) i
      = stepsF g n r (byteBitsMSB (getTopByte par n)) i := by
    rw [wbit_applyMask, if_pos hi]
    have hsl : wbit (shiftLeft8 par) i = if 8 ≤ i then wbit par (i - 8) else 0 := by
      unfold shiftLeft8
      exact wbit_shiftFold 8 24 (by omega) (by omega) par hw i
        (by rw [hlen]; exact hiW)
    have hsf := stepsF_self_feed g n hn r hsupp (getTopByte par n) ht8 8
      (le_refl 8) i
    have hbb : byteBitsMSB (getTopByte par n) =
        (List.range 8).map (fun k2 => (getTopByte par n >>> (7 - k2)) &&& 1) := rfl
    rw [hsl, hbb, hsf]
    by_cases h8i : 8 ≤ i
    · rw [if_pos h8i, if_pos ⟨h8i, hi⟩]
      exact hcorr _ (by omega)
    · rw [if_neg h8i, if_neg (fun hc => h8i hc.1)]
  have hlut : wbit (encodeLutEntry g n W (getTopByte par n ^^^ bb)) i
      = stepsF g n zeroF (byteBitsMSB (getTopByte par n ^^^ bb)) i := by
    have hrem : ((List.range 8).foldl
        (fun rem k =>
          lutLfsrStep g n rem (((getTopByte par n ^^^ bb) >>> (7 - k)) &&& 1))
        (List.replicate n 0))
        = (byteBitsMSB (getTopByte par n ^^^ bb)).foldl (lutLfsrStep g n)
            (List.replicate n 0) := by
      unfold byteBitsMSB
      rw [List.foldl_map]
    have hgetd := foldl_lutLfsrStep_eq_stepsF g n
      (byteBitsMSB (getTopByte par n ^^^ bb)) (List.replicate n 0) zeroF hg
      (byteBitsMSB_le_one _) (fun j => getD_replicate_zero n j)
      (fun j => Nat.zero_le 1) i
    simp only [encodeLutEntry]
    rw [wbit_packRemToWords _ n W i hiW, hrem, hgetd]
    have hb1 : stepsF g n zeroF (byteBitsMSB (getTopByte par n ^^^ bb)) i ≤ 1 :=
      stepsF_bits g n _ zeroF hg (byteBitsMSB_le_one _) (fun j => Nat.zero_le 1) i
    rcases Nat.le_one_iff_eq_zero_or_eq_one.mp hb1 with h0 | h1
    · rw [h0, if_neg (fun hc => hc.2 rfl)]
    · rw [h1, if_pos ⟨hi, by decide⟩]
  rw [hsplit]
  unfold byteStepW
  rw [wbit_zipxor _ _ W i hiW, hshift, hlut]

/-- Helper: the full-byte loop of the fast encoder realizes the abstract
steps over the concatenated MSB-first bits of its input bytes. -/
theorem byteLoopW_corr (g : List Nat) (n W : Nat) (hg : ∀ j, g.getD j 0 ≤ 1)
    (hn : 1 ≤ n) (hnW : n ≤ 32 * W) (bytes : List Nat) :
    ∀ (par : List Nat) (r : Nat → Nat), par.length = W →
      (∀ j, par.getD j 0 < 2 ^ 32) → (∀ i, i < n → wbit par i = r i) →
      (∀ j, n ≤ j → r j = 0) → (∀ j, r j ≤ 1) →
      (bytes.foldl (byteStepW g n W) par).length = W ∧
      (∀ j, (bytes.foldl (byteStepW g n W) par).getD j 0 < 2 ^ 32) ∧
      (∀ i, i < n → wbit (bytes.foldl (byteStepW g n W) par) i
        = stepsF g n r (bytes.flatMap byteBitsMSB) i) := by
  induction bytes with
  | nil =>
    intro par r hlen hw hcorr _ _
    exact ⟨hlen, hw, hcorr⟩
  | cons bb rest ih =>
    intro par r hlen hw hcorr hsupp hrb
    rw [List.foldl_cons, List.flatMap_cons]
    have hstep := byteStepW_corr g n W hg hn hnW par r hlen hw hcorr hsupp hrb bb
    have hrec := ih (byteStepW g n W par bb) (stepsF g n r (byteBitsMSB bb))
      (byteStepW_length g n W par bb) (byteStepW_bound g n W par bb hw)
      hstep (stepsF_supp g n _ r hsupp)
      (stepsF_bits g n _ r hg (byteBitsMSB_le_one bb) hrb)
    refine ⟨hrec.1, hrec.2.1, ?_⟩
    intro i hi
    rw [hrec.2.2 i hi]
    show stepsF g n (stepsF g n r (byteBitsMSB bb)) (rest.flatMap byteBitsMSB) i
      = stepsF g n r (byteBitsMSB bb ++ rest.flatMap byteBitsMSB) i
    unfold stepsF
    rw [List.foldl_append]

/-- Helper: bit view of xoring 2^(k mod 32) into word k / 32. -/
theorem wbit_set_xor (X : List Nat) (k i : Nat) (hk : k / 32 < X.length) :
    wbit (X.set (k / 32) (X.getD (k / 32) 0 ^^^ (1 <<< (k % 32)))) i
      = if i = k then wbit X i ^^^ 1 else wbit X i := by
  simp only [wbit_eq_ite]
  rw [getD_set]
  by_cases hik : i = k
  · subst hik
    have hcond : i / 32 = i / 32 ∧ i / 32 < X.length := ⟨rfl, hk⟩
    rw [if_pos rfl, if_pos hcond]
    have h2 : (1 : Nat) <<< (i % 32) = 2 ^ (i % 32) := by
      rw [Nat.shiftLeft_eq, one_mul]
    rw [h2, Nat.testBit_xor, Nat.testBit_two_pow,
      decide_eq_true (Eq.refl (i % 32))]
    cases htb : (X.getD (i / 32) 0).testBit (i % 32) <;> rfl
  · rw [if_neg hik]
    by_cases hw2 : k / 32 = i / 32 ∧ k / 32 < X.length
    · rw [if_pos hw2]
      have h2 : (1 : Nat) <<< (k % 32) = 2 ^ (k % 32) := by
        rw [Nat.shiftLeft_eq, one_mul]
      have hmod : ¬ k % 32 = i % 32 := by
        intro hmod
        have hdiv := hw2.1
        exact hik (by omega)
      rw [h2, Nat.testBit_xor, Nat.testBit_two_pow, decide_eq_false hmod,
        hw2.1, Bool.xor_false]
    · rw [if_neg hw2]

/-- Helper: the feedback-xor fold of the tail bit step preserves length. -/
theorem xorGFold_length (g : List Nat) (m : Nat) :
    ∀ par : List Nat, ((List.range m).foldl (fun par k =>
        if g.getD k 0 ≠ 0 then
          par.set (k / 32) (par.getD (k / 32) 0 ^^^ (1 <<< (k % 32)))
        else par) par).length = par.length := by
  induction m with
  | zero => intro par; rfl
  | succ m ih =>
    intro par
    rw [List.range_succ, List.foldl_append, List.foldl_cons, List.foldl_nil]
    split
    · rw [List.length_set, ih par]
    · exact ih par

/-- Helper: the feedback-xor fold keeps every word below 2^32. -/
theorem xorGFold_bound (g : List Nat) (m : Nat) :
    ∀ par : List Nat, (∀ j, par.getD j 0 < 2 ^ 32) →
      ∀ j, ((List.range m).foldl (fun par k =>
        if g.getD k 0 ≠ 0 then
          par.set (k / 32) (par.getD (k / 32) 0 ^^^ (1 <<< (k % 32)))
        else par) par).getD j 0 < 2 ^ 32 := by
  induction m with
  | zero => intro par hw j; exact hw j
  | succ m ih =>
    intro par hw j
    rw [List.range_succ, List.foldl_append, List.foldl_cons, List.foldl_nil]
    split
    · rw [getD_set]
      split
      · apply Nat.xor_lt_two_pow (ih par hw (m / 32))
        rw [Nat.shiftLeft_eq, one_mul]
        exact Nat.pow_lt_pow_right (by omega) (Nat.mod_lt m (by omega))
      · exact ih par hw j
    · exact ih par hw j

/-- Helper: the feedback-xor fold flips exactly the generator bits below
m. -/
theorem xorGFold_wbit (g : List Nat) (m : Nat) :
    ∀ par : List Nat, m ≤ 32 * par.length → ∀ i, i / 32 < par.length →
      wbit ((List.range m).foldl (fun par k =>
        if g.getD k 0 ≠ 0 then
          par.set (k / 32) (par.getD (k / 32) 0 ^^^ (1 <<< (k % 32)))
        else par) par) i
      = wbit par i ^^^ (if i < m ∧ g.getD i 0 ≠ 0 then 1 else 0) := by
  induction m with
  | zero =>
    intro par _ i _
    rw [if_neg (fun hc => absurd hc.1 (Nat.not_lt_zero i))]
    simp only [List.range_zero, List.foldl_nil, Nat.xor_zero]
  | succ m ih =>
    intro par hm i hi
    rw [List.range_succ, List.foldl_append, List.foldl_cons, List.foldl_nil]
    have hlenf := xorGFold_length g m par
    by_cases hgm : g.getD m 0 ≠ 0
    · rw [if_pos hgm, wbit_set_xor _ m i
        (by rw [hlenf]; exact Nat.div_lt_of_lt_mul (by omega)),
        ih par (by omega) i hi]
      by_cases him : i = m
      · subst him
        rw [if_pos rfl,
          if_neg (show ¬(i < i ∧ g.getD i 0 ≠ 0) from fun hc => by omega),
          Nat.xor_zero, if_pos ⟨Nat.lt_succ_self i, hgm⟩]
      · rw [if_neg him]
        by_cases hcond : i < m ∧ g.getD i 0 ≠ 0
        · rw [if_pos hcond, if_pos ⟨by omega, hcond.2⟩]
        · have hnc : ¬(i < m + 1 ∧ g.getD i 0 ≠ 0) := by
            intro hc
            exact hcond ⟨by omega, hc.2⟩
          rw [if_neg hcond, if_neg hnc]
    · rw [if_neg hgm, ih par (by omega) i hi]
      by_cases hcond : i < m ∧ g.getD i 0 ≠ 0
      · rw [if_pos hcond, if_pos ⟨by omega, hcond.2⟩]
      · have hnc : ¬(i < m + 1 ∧ g.getD i 0 ≠ 0) := by
          intro hc
          rcases Nat.lt_succ_iff_lt_or_eq.mp hc.1 with h | h
          · exact hcond ⟨h, hc.2⟩
          · subst h
            exact hgm hc.2
        rw [if_neg hcond, if_neg hnc]

/-- Helper: the tail bit step of the fast encoder realizes one abstract
LFSR step. -/
theorem tailBitStep_corr (g : List Nat) (n W : Nat) (hg : ∀ j, g.getD j 0 ≤ 1)
    (hn : 1 ≤ n) (hnW : n ≤ 32 * W) (par : List Nat) (r : Nat → Nat)
    (hlen : par.length = W) (hw : ∀ j, par.getD j 0 < 2 ^ 32)
    (hcorr : ∀ i, i < n → wbit par i = r i) (hrb : ∀ j, r j ≤ 1)
    (x : Nat) (hx : x ≤ 1) :
    (tailBitStep g n par x).length = W ∧
    (∀ j, (tailBitStep g n par x).getD j 0 < 2 ^ 32) ∧
    (∀ i, i < n → wbit (tailBitStep g n par x) i = stepF g n r x i) := by
  have htop : (if par.getD ((n - 1) / 32) 0 &&& (1 <<< ((n - 1) % 32)) ≠ 0
      then 1 else 0) = r (n - 1) := by
    by_cases hgd : par.getD ((n - 1) / 32) 0 &&& (1 <<< ((n - 1) % 32)) ≠ 0
    · rw [if_pos hgd, ← hcorr (n - 1) (by omega)]
      exact ((wbit_one_guard par (n - 1)).mpr hgd).symm
    · rw [if_neg hgd, ← hcorr (n - 1) (by omega)]
      have hb : wbit par (n - 1) ≤ 1 := Nat.and_le_right
      rcases Nat.le_one_iff_eq_zero_or_eq_one.mp hb with h | h
      · exact h.symm
      · exact absurd ((wbit_one_guard par (n - 1)).mp h) hgd
  have hts : tailBitStep g n par x
      = (if x ^^^ r (n - 1) ≠ 0 then
          (List.range n).foldl (fun par k =>
            if g.getD k 0 ≠ 0 then
              par.set (k / 32) (par.getD (k / 32) 0 ^^^ (1 <<< (k % 32)))
            else par)
            ((par.foldl (fun (st : List Nat × Nat) w =>
              (st.1 ++ [((w <<< 1) % 2 ^ 32) ||| st.2], w >>> 31)) ([], 0)).1)
        else (par.foldl (fun (st : List Nat × Nat) w =>
              (st.1 ++ [((w <<< 1) % 2 ^ 32) ||| st.2], w >>> 31)) ([], 0)).1) := by
    simp only [tailBitStep]
    rw [htop]
  rw [hts]
  refine ⟨?_, ?_, ?_⟩
  · split
    · rw [xorGFold_length, shiftFold_length, hlen]
    · rw [shiftFold_length, hlen]
  · intro j
    split
    · exact xorGFold_bound g n _ (shiftFold_bound 1 31 par hw) j
    · exact shiftFold_bound 1 31 par hw j
  · intro i hi
    have hiW : i / 32 < par.length := by
      rw [hlen]
      exact Nat.div_lt_of_lt_mul (by omega)
    have hsl := wbit_shiftFold 1 31 (by omega) (by omega) par hw i hiW
    have hfb : x ^^^ r (n - 1) ≤ 1 := xor_le_one hx (hrb _)
    unfold stepF
    by_cases hf : x ^^^ r (n - 1) ≠ 0
    · have hfb1 : x ^^^ r (n - 1) = 1 := by omega
      rw [if_pos hf,
        xorGFold_wbit g n _
          (by rw [shiftFold_length, hlen]; exact hnW) i
          (by rw [shiftFold_length]; exact hiW),
        hsl, if_pos hi, hfb1]
      by_cases hi0 : i = 0
      · subst hi0
        rw [if_pos rfl, if_neg (show ¬ (1 : Nat) ≤ 0 by omega)]
        rcases Nat.le_one_iff_eq_zero_or_eq_one.mp (hg 0) with h0 | h0
        · rw [h0, if_neg (show ¬(0 < n ∧ (0 : Nat) ≠ 0) from fun hc => hc.2 rfl)]
          decide
        · rw [h0, if_pos ⟨by omega, by omega⟩]
          decide
      · rw [if_neg hi0, if_pos (show 1 ≤ i by omega), hcorr (i - 1) (by omega)]
        congr 1
        rcases Nat.le_one_iff_eq_zero_or_eq_one.mp (hg i) with h0 | h0
        · rw [h0, if_neg (show ¬(i < n ∧ (0 : Nat) ≠ 0) from fun hc => hc.2 rfl)]
          decide
        · rw [h0, if_pos ⟨hi, by omega⟩]
          decide
    · have hfb0 : x ^^^ r (n - 1) = 0 := by omega
      rw [if_neg hf, hsl, if_pos hi, hfb0]
      by_cases hi0 : i = 0
      · subst hi0
        rw [if_pos rfl, if_neg (show ¬ (1 : Nat) ≤ 0 by omega), Nat.and_zero]
      · rw [if_neg hi0, if_pos (show 1 ≤ i by omega), Nat.and_zero,
          Nat.xor_zero, hcorr (i - 1) (by omega)]

/-- Helper: the tail bit loop realizes abstract steps over its inputs. -/
theorem tailLoop_corr (g : List Nat) (n W : Nat) (hg : ∀ j, g.getD j 0 ≤ 1)
    (hn : 1 ≤ n) (hnW : n ≤ 32 * W) (xs : List Nat) :
    ∀ (par : List Nat) (r : Nat → Nat), par.length = W →
      (∀ j, par.getD j 0 < 2 ^ 32) → (∀ i, i < n → wbit par i = r i) →
      (∀ j, r j ≤ 1) → (∀ x ∈ xs, x ≤ 1) →
      (xs.foldl (tailBitStep g n) par).length = W ∧
      (∀ j, (xs.foldl (tailBitStep g n) par).getD j 0 < 2 ^ 32) ∧
      (∀ i, i < n → wbit (xs.foldl (tailBitStep g n) par) i
        = stepsF g n r xs i) := by
  induction xs with
  | nil =>
    intro par r hlen hw hcorr _ _
    exact ⟨hlen, hw, hcorr⟩
  | cons x rest ih =>
    intro par r hlen hw hcorr hrb hin
    have hx : x ≤ 1 := hin x (List.mem_cons_self x rest)
    have hstep := tailBitStep_corr g n W hg hn hnW par r hlen hw hcorr hrb x hx
    rw [List.foldl_cons]
    exact ih (tailBitStep g n par x) (stepF g n r x) hstep.1 hstep.2.1
      hstep.2.2 (stepF_bits g n r x hg hx hrb)
      (fun y hy => hin y (List.mem_cons_of_mem x hy))

/-- Helper: the byte-oriented encoder loop phrased through byteStepW and
explicit input lists. -/
theorem byteEncodeWords_eq (g : List Nat) (K n W : Nat) (data : List Nat) :
    byteEncodeWords g K n W data =
      (if 0 < K % 8 then
        applyMask (((List.range (K % 8)).map
            (fun b => (data.getD (K / 8) 0 >>> (7 - b)) &&& 1)).foldl
          (tailBitStep g n)
          (((List.range (K / 8)).map (fun i => data.getD i 0)).foldl
            (byteStepW g n W) (List.replicate W 0))) n
      else ((List.range (K / 8)).map (fun i => data.getD i 0)).foldl
        (byteStepW g n W) (List.replicate W 0)) := by
  simp only [byteEncodeWords]
  rw [List.foldl_map, List.foldl_map]
  rfl

/-- Helper: every parity bit of the all-zero word array is zero. -/
theorem wbit_replicate_zero (W i : Nat) : wbit (List.replicate W 0) i = 0 := by
  unfold wbit
  rw [getD_replicate_zero, Nat.zero_shiftRight]
  rfl

/-- Helper: the stream bits of the first q full bytes are the flattened
MSB-first bits of those bytes. -/
theorem streamBits_bytes (data : List Nat) (q : Nat) :
    (List.range (8 * q)).map (streamBit data)
      = ((List.range q).map (fun i => data.getD i 0)).flatMap byteBitsMSB := by
  induction q with
  | zero => rfl
  | succ q ih =>
    rw [List.range_succ, List.map_append, List.flatMap_append,
      show 8 * (q + 1) = 8 * q + 8 from by ring, List.range_add,
      List.map_append, ih, List.map_map]
    congr 1
    simp only [List.map_cons, List.map_nil, List.flatMap_cons, List.flatMap_nil,
      List.append_nil]
    unfold byteBitsMSB
    apply List.map_congr_left
    intro b hb
    have hb8 : b < 8 := List.mem_range.mp hb
    simp only [Function.comp]
    unfold streamBit
    have hdiv : (8 * q + b) / 8 = q := by omega
    have hmod : (8 * q + b) % 8 = b := by omega
    rw [hdiv, hmod]

/-- Helper: the stream bits split into the full-byte part and the tail
part. -/
theorem streamBits_split (data : List Nat) (K : Nat) :
    (List.range K).map (streamBit data)
      = ((List.range (K / 8)).map (fun i => data.getD i 0)).flatMap byteBitsMSB
        ++ (List.range (K % 8)).map
            (fun b => (data.getD (K / 8) 0 >>> (7 - b)) &&& 1) := by
  have hK : K = 8 * (K / 8) + K % 8 := by omega
  conv_lhs => rw [hK]
  rw [List.range_add, List.map_append, streamBits_bytes, List.map_map]
  congr 1
  apply List.map_congr_left
  intro b hb
  have hb8 : b < 8 := by
    have := List.mem_range.mp hb
    omega
  simp only [Function.comp]
  unfold streamBit
  have hdiv : (8 * (K / 8) + b) / 8 = K / 8 := by omega
  have hmod : (8 * (K / 8) + b) % 8 = b := by omega
  rw [hdiv, hmod]

/-- Helper: the whole byte-oriented parity computation realizes the
abstract LFSR run over the K stream bits from the zero state. -/
theorem byteEncodeWords_corr (g : List Nat) (K n W : Nat)
    (hg : ∀ j, g.getD j 0 ≤ 1) (hn : 1 ≤ n) (hnW : n ≤ 32 * W)
    (data : List Nat) :
    ∀ i, i < n → wbit (byteEncodeWords g K n W data) i
      = stepsF g n zeroF ((List.range K).map (streamBit data)) i := by
  intro i hi
  have hbl := byteLoopW_corr g n W hg hn hnW
    ((List.range (K / 8)).map (fun i => data.getD i 0))
    (List.replicate W 0) zeroF (List.length_replicate W 0)
    (fun j => by rw [getD_replicate_zero]; norm_num)
    (fun i2 _ => wbit_replicate_zero W i2)
    (fun j _ => rfl) (fun j => Nat.zero_le 1)
  rw [byteEncodeWords_eq, streamBits_split]
  by_cases hrem : 0 < K % 8
  · rw [if_pos hrem]
    have htl := tailLoop_corr g n W hg hn hnW
      ((List.range (K % 8)).map (fun b => (data.getD (K / 8) 0 >>> (7 - b)) &&& 1))
      _ _ hbl.1 hbl.2.1 hbl.2.2
      (stepsF_bits g n _ zeroF hg
        (fun x hx => by
          rcases List.mem_flatMap.mp hx with ⟨bb, _, hxb⟩
          exact byteBitsMSB_le_one bb x hxb)
        (fun j => Nat.zero_le 1))
      (fun x hx => by
        rcases List.mem_map.mp hx with ⟨b, _, rfl⟩
        exact bit_le_one ..)
    rw [wbit_applyMask, if_pos hi, htl.2.2 i hi]
    show stepsF g n (stepsF g n zeroF _) _ i = _
    unfold stepsF
    rw [List.foldl_append]
  · rw [if_neg hrem]
    have h0 : K % 8 = 0 := by omega
    rw [hbl.2.2 i hi, h0]
    simp only [List.range_zero, List.map_nil, List.append_nil]

/-- Helper: a list reversed, written as an index map. -/
theorem reverse_eq_range_map (msg : List Nat) :
    msg.reverse = (List.range msg.length).map
      (fun s => msg.getD (msg.length - 1 - s) 0) := by
  apply List.ext_getElem
  · simp
  · intro i h1 h2
    rw [List.getElem_reverse, List.getElem_map, List.getElem_range]
    rw [List.length_reverse] at h1
    rw [List.getD_eq_getElem _ _ (by omega)]

/-- Helper: membership-checked binariness gives getD binariness. -/
theorem getD_le_one_of_all (l : List Nat) (h : ∀ x ∈ l, x ≤ 1) :
    ∀ j, l.getD j 0 ≤ 1 := by
  intro j
  rcases Nat.lt_or_ge j l.length with hj | hj
  · rw [List.getD_eq_getElem _ _ (by simpa using hj)]
    exact h _ (List.getElem_mem _)
  · rw [List.getD_eq_default _ _ (by simpa using hj)]
    exact Nat.zero_le 1

/-- Helper: the bit-setting or-folds used by the vector-decode packers
preserve the buffer length. -/
theorem orSetFold_length (P : Nat → Prop) [DecidablePred P] (pos off : Nat → Nat)
    (m : Nat) :
    ∀ data : List Nat, ((List.range m).foldl (fun data i =>
        if P i then data.set (pos i) (data.getD (pos i) 0 ||| (1 <<< (off i)))
        else data) data).length = data.length := by
  induction m with
  | zero => intro data; rfl
  | succ m ih =>
    intro data
    rw [List.range_succ, List.foldl_append, List.foldl_cons, List.foldl_nil]
    split
    · rw [List.length_set, ih data]
    · exact ih data

/-- Helper: testBit view of the bit-setting or-folds of the packers. -/
theorem orSetFold_testBit (P : Nat → Prop) [DecidablePred P] (pos off : Nat → Nat)
    (m : Nat) :
    ∀ data : List Nat, (∀ i, i < m → P i → pos i < data.length) →
      ∀ w b, (((List.range m).foldl (fun data i =>
          if P i then data.set (pos i) (data.getD (pos i) 0 ||| (1 <<< (off i)))
          else data) data).getD w 0).testBit b = true
        ↔ ((data.getD w 0).testBit b = true ∨
            ∃ i, i < m ∧ P i ∧ pos i = w ∧ off i = b) := by
  induction m with
  | zero =>
    intro data _ w b
    simp only [List.range_zero, List.foldl_nil]
    constructor
    · exact Or.inl
    · rintro (h | ⟨i, hi, _⟩)
      · exact h
      · exact absurd hi (Nat.not_lt_zero i)
  | succ m ih =>
    intro data hpos w b
    rw [List.range_succ, List.foldl_append, List.foldl_cons, List.foldl_nil]
    have ihm := ih data (fun i hi hp => hpos i (by omega) hp) w b
    by_cases hPm : P m
    · rw [if_pos hPm]
      have hlenf := orSetFold_length P pos off m data
      rw [getD_set]
      by_cases hww : pos m = w
      · rw [if_pos ⟨hww, by rw [hlenf]; exact hpos m (by omega) hPm⟩, hww]
        have h2 : (1 : Nat) <<< (off m) = 2 ^ (off m) := by
          rw [Nat.shiftLeft_eq, one_mul]
        rw [Nat.testBit_or, h2, Nat.testBit_two_pow, Bool.or_eq_true,
          decide_eq_true_eq, ihm]
        constructor
        · rintro ((h | ⟨i, hi, hp, hw2, hb2⟩) | hoff)
          · exact Or.inl h
          · exact Or.inr ⟨i, by omega, hp, hw2, hb2⟩
          · exact Or.inr ⟨m, Nat.lt_succ_self m, hPm, hww, hoff⟩
        · rintro (h | ⟨i, hi, hp, hw2, hb2⟩)
          · exact Or.inl (Or.inl h)
          · rcases Nat.lt_succ_iff_lt_or_eq.mp hi with him | him
            · exact Or.inl (Or.inr ⟨i, him, hp, hw2, hb2⟩)
            · subst him
              exact Or.inr hb2
      · rw [if_neg (fun hc => hww hc.1), ihm]
        constructor
        · rintro (h | ⟨i, hi, hp, hw2, hb2⟩)
          · exact Or.inl h
          · exact Or.inr ⟨i, by omega, hp, hw2, hb2⟩
        · rintro (h | ⟨i, hi, hp, hw2, hb2⟩)
          · exact Or.inl h
          · rcases Nat.lt_succ_iff_lt_or_eq.mp hi with him | him
            · exact Or.inr ⟨i, him, hp, hw2, hb2⟩
            · subst him
              exact absurd hw2 hww
    · rw [if_neg hPm, ihm]
      constructor
      · rintro (h | ⟨i, hi, hp, hw2, hb2⟩)
        · exact Or.inl h
        · exact Or.inr ⟨i, by omega, hp, hw2, hb2⟩
      · rintro (h | ⟨i, hi, hp, hw2, hb2⟩)
        · exact Or.inl h
        · rcases Nat.lt_succ_iff_lt_or_eq.mp hi with him | him
          · exact Or.inr ⟨i, him, hp, hw2, hb2⟩
          · subst him
            exact absurd hp hPm

/-- Helper: testBit view of the ecc packer of decode(vector). -/
theorem packEcc_testBit (c : Codec) (received : List Nat)
    (hbytes : c.n_rdncy ≤ 8 * c.ecc_bytes) :
    ∀ k b, ((packEccFromBits c received).getD k 0).testBit b = true
      ↔ (b < 8 ∧ k * 8 + b < c.n_rdncy ∧ received.getD (k * 8 + b) 0 ≠ 0) := by
  intro k b
  unfold packEccFromBits
  rw [orSetFold_testBit (fun i => received.getD i 0 ≠ 0) (fun i => i / 8)
    (fun i => i % 8) c.n_rdncy (List.replicate c.ecc_bytes 0)
    (fun i hi _ => by
      rw [List.length_replicate]
      exact Nat.div_lt_of_lt_mul (by omega)) k b]
  rw [getD_replicate_zero, Nat.zero_testBit]
  constructor
  · rintro (h | ⟨i, hi, hp, hk, hb2⟩)
    · exact absurd h (by decide)
    · have hik : i = k * 8 + b := by omega
      subst hik
      exact ⟨by omega, by omega, hp⟩
  · rintro ⟨hb8, hkb, hrx⟩
    exact Or.inr ⟨k * 8 + b, hkb, hrx, by omega, by omega⟩

/-- Helper: the stream bits of the data packer of decode(vector) read the
received message bits back. -/
theorem packData_streamBit (c : Codec) (received : List Nat) :
    ∀ s, s < c.K → streamBit (packDataFromBits c received) s
      = if received.getD (c.n_rdncy + (c.K - 1 - s)) 0 ≠ 0 then 1 else 0 := by
  intro s hs
  unfold streamBit
  simp only [packDataFromBits]
  rw [shift_and_one]
  have hiff := orSetFold_testBit
    (fun i => received.getD (c.n_rdncy + i) 0 ≠ 0)
    (fun i => (c.K - 1 - i) / 8) (fun i => 7 - (c.K - 1 - i) % 8) c.K
    (List.replicate ((c.K + 7) / 8) 0)
    (fun i hi _ => by
      rw [List.length_replicate]
      beta_reduce
      omega)
    (s / 8) (7 - s % 8)
  rw [getD_replicate_zero, Nat.zero_testBit] at hiff
  simp only [Bool.false_eq_true, false_or] at hiff
  by_cases hrx : received.getD (c.n_rdncy + (c.K - 1 - s)) 0 ≠ 0
  · rw [if_pos hrx, if_pos (hiff.mpr
      ⟨c.K - 1 - s, by omega, hrx, by omega, by omega⟩)]
  · have hnb : ¬ (((packDataFromBits c received).getD (s / 8) 0).testBit
        (7 - s % 8) = true) := by
      simp only [packDataFromBits]
      intro hbit
      rcases hiff.mp hbit with ⟨i, hi, hp, hpos, hoff⟩
      have hik : i = c.K - 1 - s := by omega
      subst hik
      exact hrx hp
    rw [if_neg hrx, if_neg (by simpa only [packDataFromBits] using hnb)]

/-- Helper: unpacking the packed received message bits gives back the
message. -/
theorem unpackMsg_packData (c : Codec) (msg parity : List Nat)
    (hplen : parity.length = c.n_rdncy) (hmsg : msg.length = c.K)
    (hmb : ∀ x ∈ msg, x ≤ 1) :
    unpackMsg c.K (packDataFromBits c (parity ++ msg)) = msg := by
  apply List.ext_getElem
  · simp [unpackMsg, hmsg]
  · intro i h1 h2
    have hiK : i < c.K := by
      simpa [unpackMsg] using h1
    unfold unpackMsg
    rw [List.getElem_map, List.getElem_range]
    show streamBit (packDataFromBits c (parity ++ msg)) (c.K - 1 - i) = msg[i]
    rw [packData_streamBit c _ (c.K - 1 - i) (by omega)]
    rw [show c.K - 1 - (c.K - 1 - i) = i from by omega]
    rw [List.getD_append_right parity msg 0 (c.n_rdncy + i) (by omega)]
    rw [show c.n_rdncy + i - parity.length = i from by omega]
    rw [List.getD_eq_getElem _ _ (by omega)]
    have hb := hmb _ (List.getElem_mem (l := msg) (n := i) (h := by omega))
    rcases Nat.le_one_iff_eq_zero_or_eq_one.mp hb with h0 | h1b
    · rw [h0, if_neg (fun hc => hc rfl)]
    · rw [h1b, if_pos (by omega)]

/-- Helper: the syndrome LUT of a zero difference byte is zero. -/
theorem syndromeLut_zero (c : Codec) (i : Nat) : syndromeLut c i 0 = 0 := rfl

/-- Helper: a zero ecc difference yields all-zero syndrome polynomials. -/
theorem syndromesFromDiff_zero (c : Codec) (diff : List Nat)
    (hd : ∀ k, diff.getD k 0 = 0) :
    ∀ j, (syndromesFromDiff c diff).getD j 0 = 0 := by
  suffices h : ∀ (ks : List Nat) (sp : List Nat), (∀ j, sp.getD j 0 = 0) →
      ∀ j, ((ks.foldl (fun sPoly k =>
        (List.range (2 * c.t + 1)).map (fun i =>
          if i = 0 then sPoly.getD 0 0
          else
            (if sPoly.getD i 0 ≠ 0 then
              c.alpha_to.getD
                (((c.index_of.getD (sPoly.getD i 0) 0 +
                  ((i * 8 % c.N : Nat) : Int)) % (c.N : Int)).toNat) 0
            else sPoly.getD i 0) ^^^ syndromeLut c i
              (if k = c.ecc_bytes - 1 ∧ c.n_rdncy % 8 ≠ 0
               then diff.getD k 0 &&& ((1 <<< (c.n_rdncy % 8)) - 1)
               else diff.getD k 0))) sp)).getD j 0 = 0 by
    intro j
    exact h (List.range c.ecc_bytes).reverse (List.replicate (2 * c.t + 1) 0)
      (fun j2 => getD_replicate_zero _ j2) j
  intro ks
  induction ks with
  | nil => intro sp hsp j; exact hsp j
  | cons k rest ih =>
    intro sp hsp j
    rw [List.foldl_cons]
    apply ih
    intro j2
    rw [getD_range_map]
    by_cases hj2 : j2 < 2 * c.t + 1
    · rw [if_pos hj2]
      by_cases hj0 : j2 = 0
      · rw [if_pos hj0]
        exact hsp 0
      · rw [if_neg hj0, hsp j2,
          if_neg (show ¬ (0 : Nat) ≠ 0 from fun hc => hc rfl),
          hd k, Nat.zero_and, ite_self, syndromeLut_zero, Nat.zero_xor]
    · rw [if_neg hj2]

/-- Helper: when every ecc byte equals the re-encoded byte, the fast byte
decode takes the no-error branch and returns its inputs untouched. -/
theorem decodeBytes_clean (c : Codec) (data ecc : List Nat)
    (heq : ∀ k, k < c.ecc_bytes → (byteEncode c data).getD k 0 = ecc.getD k 0) :
    decodeBytes c data ecc = (0, data, ecc) := by
  have hdz : ∀ k, ((List.range c.ecc_bytes).map
      (fun i => (byteEncode c data).getD i 0 ^^^ ecc.getD i 0)).getD k 0 = 0 := by
    intro k
    rw [getD_range_map]
    by_cases hk : k < c.ecc_bytes
    · rw [if_pos hk, heq k hk, Nat.xor_self]
    · rw [if_neg hk]
  have hsp := syndromesFromDiff_zero c _ hdz
  have hany : ((List.range (2 * c.t)).any (fun k =>
      (syndromesFromDiff c ((List.range c.ecc_bytes).map
        (fun i => (byteEncode c data).getD i 0 ^^^ ecc.getD i 0))).getD
          (k + 1) 0 ≠ 0)) = false := by
    rw [List.any_eq_false]
    intro x _
    rw [hsp (x + 1)]
    decide
  simp only [decodeBytes]
  rw [hany, if_pos (show ¬ false = true by decide)]

/-- Helper: lfsrStep always returns a register of length n. -/
theorem lfsrStep_length (g : List Nat) (n : Nat) (par : List Nat) (input : Nat) :
    (lfsrStep g n par input).length = n := by
  simp [lfsrStep]

/-- Helper: folding lfsrStep over any input list keeps the register at
length n. -/
theorem foldl_lfsrStep_length (g : List Nat) (n : Nat) (l : List Nat)
    (init : List Nat) (h : init.length = n) :
    (l.foldl (lfsrStep g n) init).length = n := by
  induction l generalizing init with
  | nil => simpa
  | cons a l ih => rw [List.foldl_cons]; exact ih _ (lfsrStep_length ..)

/-- Helper: the reference parity register has length n_rdncy. -/
theorem encodeParity_length (g : List Nat) (n : Nat) (msg : List Nat) :
    (encodeParity g n msg).length = n :=
  foldl_lfsrStep_length g n msg.reverse _ (List.length_replicate ..)

/-- C9: bits [n_rdncy, N) of a codeword produced by encode_bits equal the
input message verbatim and in order. -/
theorem C9_systematic_form (c : Codec) (msg cw : List Nat)
    (h : encodeVec c msg = some cw) :
    ∀ i < c.K, cw.getD (c.n_rdncy + i) 0 = msg.getD i 0 := by
  unfold encodeVec at h
  split at h
  · injection h with h
    subst h
    intro i hi
    rw [List.getD_append_right _ _ _ _ (by rw [encodeParity_length]; omega)]
    rw [encodeParity_length]
    congr 1
    omega
  · cases h

/-- C9 witness: instantiation at codec15 and a concrete message. -/
theorem C9_systematic_form_witness :
    (((encodeVec codec15 [1,0,1,1,0,0,1]).getD []).getD (codec15.n_rdncy + 2) 0
      = ([1,0,1,1,0,0,1] : List Nat).getD 2 0) :=
  C9_systematic_form codec15 [1,0,1,1,0,0,1] _ (by decide) 2 (by decide)

/-- C1: the decoder does not correct every pattern of up to t errors on
every constructed codec.  The constructor accepts (N, t) = (7, 4) although
2t >= N (see C4); for that codec and message M = [0] (codeword 0000000), a
single bit error at index 6 (weight 1 <= t) makes decode_bits return
false, and the weight-3 error at indices 4, 5, 6 makes it return true with
the wrong message [1].  The spec constraint 2t < N (§3) marks the
constructor's missing validation as the bug. -/
theorem C1_correction_up_to_t_fails :
    (mkCodec 7 4 []).isOk = true ∧ codec7.t = 4 ∧ codec7.K = 1 ∧
    encodeVec codec7 [0] = some [0, 0, 0, 0, 0, 0, 0] ∧
    ([0, 0, 0, 0, 0, 0, 1] : List Nat).count 1 = 1 ∧
    decodeVec codec7 (xorBits [0, 0, 0, 0, 0, 0, 0] [0, 0, 0, 0, 0, 0, 1]) []
      = (false, []) ∧
    ([0, 0, 0, 0, 1, 1, 1] : List Nat).count 1 = 3 ∧
    decodeVec codec7 (xorBits [0, 0, 0, 0, 0, 0, 0] [0, 0, 0, 0, 1, 1, 1]) []
      = (true, [1]) := by decide

/-- C7 counterexample: the built-in default polynomial for m = 9 does not
set p[1]; it sets p[4] instead, so the default is not x^9 + x + 1. -/
theorem C7_default_m9_cex :
    (selectPolynomial 9).getD 1 0 = 0 ∧ (selectPolynomial 9).getD 4 0 = 1 := by
  decide

/-- C7 amended: for m = 9 the built-in default primitive polynomial has
exactly the non-trivial tap p[4] set (besides p[0] = p[9] = 1), i.e. it is
x^9 + x^4 + 1. -/
theorem C7_default_m9 :
    selectPolynomial 9 = [1, 0, 0, 0, 1, 0, 0, 0, 0, 1] := by decide

/-- C4 counterexample: construction with N = 7, t = 4 succeeds although
2t ≥ N, so the claimed rejection of 2t ≥ N does not happen. -/
theorem C4_accepts_2t_ge_N :
    7 ≤ 2 * 4 ∧ (mkCodec 7 4 []).isOk = true := by decide

/-- C4 amended: construction fails (with invalid_argument) exactly when
N is not 2^m - 1 for m = ceil(log2 N), or a primitive polynomial is
supplied whose length is not m + 1.  No check on t, K, the range of m, or
primitivity of p is performed. -/
theorem C4_error_iff (N t : Nat) (p : List Nat) :
    (mkCodec N t p).isOk = true ↔
      (N = 2 ^ ceilLog2 N - 1 ∧ (p = [] ∨ p.length = ceilLog2 N + 1)) := by
  have hs : (1 : Nat) <<< ceilLog2 N = 2 ^ ceilLog2 N := by
    rw [Nat.shiftLeft_eq, one_mul]
  have e1 : ∀ s : String, (Except.error (α := Codec) s).isOk = false := fun _ => rfl
  have e2 : ∀ c : Codec, (Except.ok (ε := String) c).isOk = true := fun _ => rfl
  unfold mkCodec
  split
  · rename_i h1
    rw [hs] at h1
    rw [e1]
    exact iff_of_false (by decide) (fun h => h1 h.1)
  · split
    · rename_i h1 h2
      rw [e1]
      exact iff_of_false (by decide)
        (fun h => h.2.elim (fun hp => h2.1 hp) (fun hl => h2.2 hl))
    · rename_i h1 h2
      rw [hs] at h1
      push_neg at h1
      push_neg at h2
      rw [e2]
      refine iff_of_true rfl ⟨h1, ?_⟩
      by_cases hp : p = []
      · exact .inl hp
      · exact .inr (h2 hp)

/-- C6 counterexample: with the accepted non-primitive polynomial
x^4+x^3+x^2+x+1 at N = 15, t = 1, the raw generator coefficient g[1]
is 12 (neither 0 nor 1), yet construction succeeds and stores the
silently masked binary value: no Internal error is surfaced. -/
theorem C6_nonbinary_masked_cex :
    (computeGeneratorPre 15 3 (initGalois 4 15 [1,1,1,1,1]).1
        (initGalois 4 15 [1,1,1,1,1]).2).getD 1 0 = 12 ∧
    (mkCodec 15 1 [1,1,1,1,1]).isOk = true ∧
    codecNP.g = [1, 0, 1, 1, 1] := by decide

/-- C6 amended: the construction never surfaces an error for non-binary
generator coefficients; instead the final val &= 1 loop silently reduces
every coefficient, so the stored g is always binary. -/
theorem C6_gen_coeffs_binary (N d : Nat) (alpha : List Nat) (iof : List Int) :
    ∀ x ∈ computeGeneratorPolynomial N d alpha iof, x ≤ 1 := by
  intro x hx
  unfold computeGeneratorPolynomial at hx
  rcases List.mem_map.mp hx with ⟨v, _, rfl⟩
  exact Nat.and_le_right

/-- C6 witness: the binary-coefficient theorem applied to the codecNP
generator tables at a concrete member. -/
theorem C6_gen_coeffs_binary_witness :
    (1 : Nat) ≤ 1 :=
  C6_gen_coeffs_binary 15 3 (initGalois 4 15 [1,1,1,1,1]).1
    (initGalois 4 15 [1,1,1,1,1]).2 1 (by decide)

/-- C5 counterexample: decode of a failing length-N received word leaves a
length-0 output vector, not length K = 7: the vector is only resized on
success. -/
theorem C5_out_not_resized_cex :
    codec15.K = 7 ∧
    ([1,1,0,1,0,0,0,0,0,0,0,0,0,0,0] : List Nat).length = codec15.N ∧
    decodeVec codec15 [1,1,0,1,0,0,0,0,0,0,0,0,0,0,0] [] = (false, []) ∧
    (([] : List Nat).length = codec15.K → False) := by decide

/-- C5 amended: on uncorrectable failure decode_bits returns the output
vector exactly as it was passed in (whatever its length); it is resized
to K only on the success path. -/
theorem C5_failure_out_unchanged (c : Codec) (received out out1 : List Nat)
    (h : decodeVec c received out = (false, out1)) : out1 = out := by
  simp only [decodeVec] at h
  split at h
  · injection h with h1 h2
    exact h2.symm
  · split at h
    · injection h with h1 h2
      exact h2.symm
    · injection h with h1 h2
      exact absurd h1.symm (by simp)

/-- C5 witness: the unchanged-output theorem applied to the concrete
failing decode. -/
theorem C5_failure_out_unchanged_witness : ([9, 9] : List Nat) = [9, 9] :=
  C5_failure_out_unchanged codec15 [1,1,0,1,0,0,0,0,0,0,0,0,0,0,0] [9,9] [9,9]
    (by decide)

/-- C10: whenever the byte-oriented decode reports an uncorrectable
failure (negative return), the data and ecc buffers are returned exactly
as they were on entry. -/
theorem C10_failure_atomic (c : Codec) (data ecc : List Nat)
    (r : Int) (data1 ecc1 : List Nat)
    (h : decodeBytes c data ecc = (r, data1, ecc1)) (hr : r < 0) :
    data1 = data ∧ ecc1 = ecc := by
  simp only [decodeBytes] at h
  split at h
  · injection h with h1 h2
    rw [← h1] at hr
    exact absurd hr (by decide)
  · split at h
    · split at h
      · injection h with h1 h2
        rw [← h1] at hr
        exact absurd hr (by simp [not_lt])
      · injection h with h1 h2
        injection h2 with h3 h4
        exact ⟨h3.symm, h4.symm⟩
    · injection h with h1 h2
      injection h2 with h3 h4
      exact ⟨h3.symm, h4.symm⟩

/-- C10 witness: the atomicity theorem applied to a concrete failing byte
decode. -/
theorem C10_failure_atomic_witness :
    ([0] : List Nat) = [0] ∧ ([11] : List Nat) = [11] :=
  C10_failure_atomic codec15 [0] [11] (-1) [0] [11] (by decide) (by decide)

/-- Helper: the full encode-agreement argument, shared by the C2 theorem
and the clean-channel decode development. -/
theorem byteEncode_parity_agree (c : Codec) (msg data : List Nat)
    (hg : ∀ j, c.g.getD j 0 ≤ 1)
    (hn : 1 ≤ c.n_rdncy)
    (hbits : c.ecc_bits = c.n_rdncy)
    (hwords : c.n_rdncy ≤ 32 * c.ecc_words)
    (hbytes : c.n_rdncy ≤ 8 * c.ecc_bytes)
    (hmsg : msg.length = c.K)
    (hmb : ∀ x ∈ msg, x ≤ 1)
    (hdata : ∀ s, s < c.K → streamBit data s = msg.getD (c.K - 1 - s) 0) :
    ∀ i, i < c.n_rdncy →
      ((byteEncode c data).getD (i / 8) 0 >>> (i % 8)) &&& 1
        = (encodeParity c.g c.n_rdncy msg).getD i 0 := by
  intro i hi
  have hrev : ∀ x ∈ msg.reverse, x ≤ 1 := fun x hx =>
    hmb x (List.mem_reverse.mp hx)
  have hright := foldl_lfsrStep_eq_stepsF c.g c.n_rdncy msg.reverse
    (List.replicate c.n_rdncy 0) zeroF hg hrev
    (fun j => getD_replicate_zero _ j) (fun j => Nat.zero_le 1) i
  have hinputs : (List.range c.K).map (streamBit data) = msg.reverse := by
    rw [reverse_eq_range_map msg, hmsg]
    apply List.map_congr_left
    intro s hs
    exact hdata s (List.mem_range.mp hs)
  have hbe := byteEncodeWords_corr c.g c.K c.n_rdncy c.ecc_words hg hn
    hwords data i hi
  rw [hinputs] at hbe
  unfold byteEncode
  rw [hbits]
  have hk8 : i / 8 < c.ecc_bytes := Nat.div_lt_of_lt_mul (by omega)
  rw [eccByte_bit _ c.n_rdncy c.ecc_bytes (i / 8) (i % 8) hk8 (by omega)]
  have hieq : i / 8 * 8 + i % 8 = i := by omega
  rw [hieq, hbe]
  unfold encodeParity
  rw [hright]
  have hb1 : stepsF c.g c.n_rdncy zeroF msg.reverse i ≤ 1 :=
    stepsF_bits c.g c.n_rdncy msg.reverse zeroF hg hrev
      (fun j => Nat.zero_le 1) i
  rcases Nat.le_one_iff_eq_zero_or_eq_one.mp hb1 with h0 | h1
  · rw [h0, if_neg (fun hc => absurd hc.2 (by omega))]
  · rw [h1, if_pos ⟨hi, rfl⟩]

/-- C2: encode agreement.  For a codec whose generator is binary and whose
ecc dimensions are the standard ones (ecc_bits = n_rdncy, with enough words
and bytes to hold them), and any K-bit message M (binary entries) packed
into bytes per the paragraph-3 message convention (stream bit s is message
bit K-1-s, MSB first within each byte), every parity bit i read from the
byte-oriented encoder's output under the paragraph-3 parity convention
(bit i%8 of ecc byte i/8) equals parity bit i produced by the bit-oriented
encoder __encode on M. -/
theorem C2_encode_agreement (c : Codec) (msg data : List Nat)
    (hg : ∀ j, c.g.getD j 0 ≤ 1)
    (hn : 1 ≤ c.n_rdncy)
    (hbits : c.ecc_bits = c.n_rdncy)
    (hwords : c.n_rdncy ≤ 32 * c.ecc_words)
    (hbytes : c.n_rdncy ≤ 8 * c.ecc_bytes)
    (hmsg : msg.length = c.K)
    (hmb : ∀ x ∈ msg, x ≤ 1)
    (hdata : ∀ s, s < c.K → streamBit data s = msg.getD (c.K - 1 - s) 0) :
    ∀ i, i < c.n_rdncy →
      ((byteEncode c data).getD (i / 8) 0 >>> (i % 8)) &&& 1
        = (encodeParity c.g c.n_rdncy msg).getD i 0 :=
  byteEncode_parity_agree c msg data hg hn hbits hwords hbytes hmsg hmb hdata

/-- C2 witness: the agreement theorem applied to the BCH(15,7,2) codec,
the message 1011001 and its packed byte 154, at parity bit 6. -/
theorem C2_encode_agreement_witness :
    ((byteEncode codec15 [154]).getD (6 / 8) 0 >>> (6 % 8)) &&& 1
      = (encodeParity codec15.g codec15.n_rdncy [1, 0, 1, 1, 0, 0, 1]).getD 6 0 :=
  C2_encode_agreement codec15 [1, 0, 1, 1, 0, 0, 1] [154]
    (getD_le_one_of_all _ (by decide)) (by decide) (by decide) (by decide)
    (by decide) (by decide) (by decide) (by decide) 6 (by decide)

/-- C3: clean-channel decode identity.  For a codec with binary generator,
standard ecc dimensions and N = n_rdncy + K, and any K-bit binary message
M, decoding the uncorrupted codeword produced by encode_bits returns true
together with exactly M. -/
theorem C3_decode_identity (c : Codec) (msg out cw : List Nat)
    (hg : ∀ j, c.g.getD j 0 ≤ 1)
    (hn : 1 ≤ c.n_rdncy)
    (hbits : c.ecc_bits = c.n_rdncy)
    (hwords : c.n_rdncy ≤ 32 * c.ecc_words)
    (hbytes : c.n_rdncy ≤ 8 * c.ecc_bytes)
    (hNK : c.n_rdncy + c.K = c.N)
    (hmsg : msg.length = c.K)
    (hmb : ∀ x ∈ msg, x ≤ 1)
    (hcw : encodeVec c msg = some cw) :
    decodeVec c cw out = (true, msg) := by
  have hcw2 : cw = encodeParity c.g c.n_rdncy msg ++ msg := by
    unfold encodeVec at hcw
    rw [if_pos hmsg] at hcw
    injection hcw with h
    exact h.symm
  subst hcw2
  have hplen : (encodeParity c.g c.n_rdncy msg).length = c.n_rdncy :=
    encodeParity_length c.g c.n_rdncy msg
  have hrev : ∀ x ∈ msg.reverse, x ≤ 1 := fun x hx =>
    hmb x (List.mem_reverse.mp hx)
  have hpbit : ∀ i, (encodeParity c.g c.n_rdncy msg).getD i 0
      = stepsF c.g c.n_rdncy zeroF msg.reverse i :=
    foldl_lfsrStep_eq_stepsF c.g c.n_rdncy msg.reverse
      (List.replicate c.n_rdncy 0) zeroF hg hrev
      (fun j => getD_replicate_zero _ j) (fun j => Nat.zero_le 1)
  have hpb1 : ∀ i, (encodeParity c.g c.n_rdncy msg).getD i 0 ≤ 1 := fun i => by
    rw [hpbit i]
    exact stepsF_bits c.g c.n_rdncy msg.reverse zeroF hg hrev
      (fun j => Nat.zero_le 1) i
  have hdata : ∀ s, s < c.K →
      streamBit (packDataFromBits c (encodeParity c.g c.n_rdncy msg ++ msg)) s
        = msg.getD (c.K - 1 - s) 0 := by
    intro s hs
    rw [packData_streamBit c _ s hs,
      List.getD_append_right _ _ 0 _ (by omega),
      show c.n_rdncy + (c.K - 1 - s) - (encodeParity c.g c.n_rdncy msg).length
        = c.K - 1 - s from by omega]
    have hb : msg.getD (c.K - 1 - s) 0 ≤ 1 := getD_le_one_of_all msg hmb _
    rcases Nat.le_one_iff_eq_zero_or_eq_one.mp hb with h0 | h1
    · rw [h0, if_neg (fun hc => hc rfl)]
    · rw [h1, if_pos (by omega)]
  have hinputs : (List.range c.K).map
      (streamBit (packDataFromBits c (encodeParity c.g c.n_rdncy msg ++ msg)))
      = msg.reverse := by
    rw [reverse_eq_range_map msg, hmsg]
    apply List.map_congr_left
    intro s hs2
    exact hdata s (List.mem_range.mp hs2)
  have hwb : ∀ i, i < c.n_rdncy →
      wbit (byteEncodeWords c.g c.K c.n_rdncy c.ecc_words
        (packDataFromBits c (encodeParity c.g c.n_rdncy msg ++ msg))) i
        = (encodeParity c.g c.n_rdncy msg).getD i 0 := by
    intro i hi
    rw [byteEncodeWords_corr c.g c.K c.n_rdncy c.ecc_words hg hn hwords _ i hi,
      hinputs, hpbit i]
  have heq : ∀ k, k < c.ecc_bytes →
      (byteEncode c (packDataFromBits c
        (encodeParity c.g c.n_rdncy msg ++ msg))).getD k 0
        = (packEccFromBits c (encodeParity c.g c.n_rdncy msg ++ msg)).getD k 0 := by
    intro k hk
    apply Nat.eq_of_testBit_eq
    intro b
    apply Bool.coe_iff_coe.mp
    have h2 := packEcc_testBit c (encodeParity c.g c.n_rdncy msg ++ msg)
      hbytes k b
    have h1 : ((byteEncode c (packDataFromBits c
        (encodeParity c.g c.n_rdncy msg ++ msg))).getD k 0).testBit b = true
        ↔ (b < 8 ∧ k * 8 + b < c.n_rdncy ∧
            wbit (byteEncodeWords c.g c.K c.n_rdncy c.ecc_words
              (packDataFromBits c (encodeParity c.g c.n_rdncy msg ++ msg)))
              (k * 8 + b) = 1) := by
      unfold byteEncode
      rw [hbits]
      unfold wordsToEccBytes
      rw [getD_range_map, if_pos hk]
      have hor := orFold_testBit (fun b2 => k * 8 + b2 < c.n_rdncy ∧
        (byteEncodeWords c.g c.K c.n_rdncy c.ecc_words
          (packDataFromBits c (encodeParity c.g c.n_rdncy msg ++ msg))).getD
            ((k * 8 + b2) / 32) 0 &&& (1 <<< ((k * 8 + b2) % 32)) ≠ 0) 8 0 b
      simp only [Nat.zero_testBit, Bool.false_eq_true, false_or] at hor
      rw [hor]
      constructor
      · rintro ⟨hb8, hkb, hgd⟩
        exact ⟨hb8, hkb, (wbit_one_guard _ _).mpr hgd⟩
      · rintro ⟨hb8, hkb, hw1⟩
        exact ⟨hb8, hkb, (wbit_one_guard _ _).mp hw1⟩
    rw [h1, h2]
    constructor
    · rintro ⟨hb8, hkb, hw1⟩
      refine ⟨hb8, hkb, ?_⟩
      rw [List.getD_append _ _ 0 _ (by omega)]
      rw [hwb _ hkb] at hw1
      omega
    · rintro ⟨hb8, hkb, hrx⟩
      refine ⟨hb8, hkb, ?_⟩
      rw [List.getD_append _ _ 0 _ (by omega)] at hrx
      rw [hwb _ hkb]
      have hple := hpb1 (k * 8 + b)
      omega
  have hdec := decodeBytes_clean c _ _ heq
  simp only [decodeVec]
  rw [if_neg (show ¬ (encodeParity c.g c.n_rdncy msg ++ msg).length ≠ c.N from
    fun hc => hc (by rw [List.length_append, hplen, hmsg]; exact hNK))]
  rw [hdec, if_neg (show ¬ (0 : Int) < 0 from by decide)]
  show (true, unpackMsg c.K (packDataFromBits c
    (encodeParity c.g c.n_rdncy msg ++ msg))) = (true, msg)
  rw [unpackMsg_packData c msg (encodeParity c.g c.n_rdncy msg) hplen hmsg hmb]

/-- C3 witness: the clean-channel identity applied to the BCH(15,7,2)
codec and the message 1011001. -/
theorem C3_decode_identity_witness :
    decodeVec codec15 [0, 1, 0, 0, 0, 0, 1, 1, 1, 0, 1, 1, 0, 0, 1] []
      = (true, [1, 0, 1, 1, 0, 0, 1]) :=
  C3_decode_identity codec15 [1, 0, 1, 1, 0, 0, 1] []
    [0, 1, 0, 0, 0, 0, 1, 1, 1, 0, 1, 1, 0, 0, 1]
    (getD_le_one_of_all _ (by decide)) (by decide) (by decide) (by decide)
    (by decide) (by decide) (by decide) (by decide) (by decide)

end LiteBCH
